import Mathlib

/-!
# toggle-tool: monthly per-tag time report

A shallow embedding of `cmd/main.go` and the properties of its month resolver,
aggregation, workday filter and renderer.

Conventions of the embedding

* Go `string` is `String`; every function works on the character list `s.data`.
  The source only ever inspects ASCII bytes (digits, signs, `-`, `:`, `T`, `Z`,
  `.`, `,`), so on valid UTF-8 the character view and the byte view agree.
* Go `int` is `Int`, and every `+=` of the source goes through `wrapInt`, the
  two's complement reduction to 64 bits.
* Go multiple results `(v, err)` keep their shape: the error is an `Option String`
  holding the message, `none` being `nil`.
* Go `map` is an association list with distinct keys (`GoMap`); wherever the
  source ranges over a map, the iteration order is an explicit parameter.
* The standard library (`strconv`, `strings`, `time`, `fmt`) is modelled from its
  documented behaviour, package `time` with its 64-bit counts of seconds;
  third-party packages (`jpholiday`, `encoding/json` decoding, the HTTP
  transport) are parameters.
-/

namespace ToggleTool

/-! ## Machine integers -/

/-- Smallest value of a 64-bit Go `int`. -/
def minInt : Int := -9223372036854775808

/-- Largest value of a 64-bit Go `int`. -/
def maxInt : Int := 9223372036854775807

/-- Two's complement reduction of an integer to the 64-bit `int` range. -/
def wrapInt (x : Int) : Int :=
  (x + 9223372036854775808) % 18446744073709551616 - 9223372036854775808

/-! ## Characters and decimal digits -/

/-- Whether the character is one of `0`..`9`. -/
def isDigit (c : Char) : Bool :=
  decide (48 ≤ c.toNat) && decide (c.toNat ≤ 57)

/-- Numeric value of a digit character (`c - '0'`). -/
def digitVal (c : Char) : Nat :=
  c.toNat - 48

/-- The digit character of a value below ten. -/
def digitChar (n : Nat) : Char :=
  Char.ofNat (48 + n)

/-- Reads a run of decimal digits, most significant first, onto an accumulator;
fails on the first character that is not a digit. -/
def parseDigits : List Char → Nat → Option Nat
  | [], acc => some acc
  | c :: cs, acc => if isDigit c then parseDigits cs (acc * 10 + digitVal c) else none

end ToggleTool

/-! ## `strings` and `strconv` -/

namespace strings

/-- Splits a character list at every occurrence of the separator. -/
def splitChars (sep : Char) : List Char → List (List Char)
  | [] => [[]]
  | c :: cs =>
    if c = sep then [] :: splitChars sep cs
    else
      match splitChars sep cs with
      | [] => [[c]]
      | p :: ps => (c :: p) :: ps

/-- Go `strings.Split(s, sep)` for a separator of one byte (the source calls it
with `"-"`): the substrings between the separators, `n + 1` of them when the
separator occurs `n` times. -/
def Split (s : String) (sep : Char) : List String :=
  (splitChars sep s.data).map String.mk

end strings

namespace strconv

open ToggleTool

/-- Go `strconv.Atoi`: an optional sign `+` or `-`, then one or more decimal
digits, the value within the `int` range; `none` is the `*NumError`. -/
def Atoi (s : String) : Option Int :=
  match s.data with
  | [] => none
  | c :: cs =>
    let ds := if c = '-' ∨ c = '+' then cs else c :: cs
    match ds with
    | [] => none
    | _ :: _ =>
      match parseDigits ds 0 with
      | none => none
      | some n =>
        let v : Int := if c = '-' then -(n : Int) else (n : Int)
        if minInt ≤ v ∧ v ≤ maxInt then some v else none

end strconv

namespace ToggleTool

/-! ## Decimal formatting (`fmt` verbs `%d` and `%02d`) -/

/-- Decimal digits of a natural number, most significant first, with `fuel`
bounding the number of digits produced. -/
def natDigitsAux : Nat → Nat → List Char → List Char
  | 0, _, acc => acc
  | fuel + 1, n, acc =>
    if n < 10 then digitChar n :: acc
    else natDigitsAux fuel (n / 10) (digitChar (n % 10) :: acc)

/-- Decimal digits of a natural number (`0` is `"0"`). -/
def natDigits (n : Nat) : List Char :=
  natDigitsAux (n + 1) n []

/-- Pads a digit list on the left with `0` up to the given width. -/
def zeroPad (width : Nat) (ds : List Char) : List Char :=
  List.replicate (width - ds.length) '0' ++ ds

/-- Verb `%d` of `fmt.Sprintf` on an `int`. -/
def fmtInt (n : Int) : String :=
  if n < 0 then String.mk ('-' :: natDigits n.natAbs) else String.mk (natDigits n.natAbs)

/-- Verb `%0Nd` of `fmt.Sprintf` on an `int`: zero padding to `width` characters,
the sign (if any) counted in the width and written before the zeros. -/
def fmtIntPad (width : Nat) (n : Int) : String :=
  if n < 0 then String.mk ('-' :: zeroPad (width - 1) (natDigits n.natAbs))
  else String.mk (zeroPad width (natDigits n.natAbs))

/-! ## Month Resolver -/

/-- Source `parseMonthArgument`. `now` is the `(year, month)` of `time.Now()`. -/
def parseMonthArgument (now : Int × Int) (args : List String) : Int × Int × Option String :=
  match args with
  | _ :: monthArg :: _ =>
    match strings.Split monthArg '-' with
    | [p0, p1] =>
      match strconv.Atoi p0 with
      | none => (0, 0, some ("invalid year: " ++ p0))
      | some year =>
        match strconv.Atoi p1 with
        | none => (0, 0, some ("invalid month: " ++ p1))
        | some monthInt =>
          if monthInt < 1 ∨ monthInt > 12 then
            (0, 0, some ("month must be between 1 and 12, got " ++ fmtInt monthInt))
          else (year, monthInt, none)
    | _ => (0, 0, some "invalid month format. Use YYYY-MM (e.g., 2025-06)")
  | _ => (now.1, now.2, none)

/-! ## Calendar arithmetic (proleptic Gregorian calendar, as in package `time`) -/

/-- Go `time.isLeap`. -/
def isLeap (year : Int) : Bool :=
  decide (year % 4 = 0) && (decide (year % 100 ≠ 0) || decide (year % 400 = 0))

/-- Go `time.daysIn`: number of days of a month (`1..12`) of a year. -/
def daysIn (month year : Int) : Int :=
  if month = 2 then (if isLeap year then 29 else 28)
  else if month = 4 ∨ month = 6 ∨ month = 9 ∨ month = 11 then 30
  else 31

/-- Number of days from 1970-01-01 to the given civil date (month in `1..12`);
negative before the epoch. Years are counted from March so that the leap day
is the last day of the shifted year. -/
def daysFromCivil (year month day : Int) : Int :=
  let y := if month ≤ 2 then year - 1 else year
  let era := y / 400
  let yoe := y - era * 400
  let mp := (month + 9) % 12
  let doy := (153 * mp + 2) / 5 + day - 1
  let doe := yoe * 365 + yoe / 4 - yoe / 100 + doy
  era * 146097 + doe - 719468

/-- Civil date `(year, month, day)` of a day number counted from 1970-01-01. -/
def civilFromDays (days : Int) : Int × Int × Int :=
  let z := days + 719468
  let era := z / 146097
  let doe := z - era * 146097
  let yoe := (doe - doe / 1460 + doe / 36524 - doe / 146096) / 365
  let doy := doe - (365 * yoe + yoe / 4 - yoe / 100)
  let mp := (5 * doy + 2) / 153
  let d := doy - (153 * mp + 2) / 5 + 1
  let m := if mp < 10 then mp + 3 else mp - 9
  let y := yoe + era * 400
  (if m ≤ 2 then y + 1 else y, m, d)

end ToggleTool

/-! ## `time` -/

namespace time

open ToggleTool

/-- Go `time.Time` at the resolution of a second: an instant, and the offset of
the location attached to it at that instant. -/
structure Time where
  /-- Seconds since 1970-01-01T00:00:00Z. -/
  unix : Int
  /-- Seconds east of UTC of the attached location. -/
  offset : Int
  deriving DecidableEq, Repr

/-- Offset of the location `Asia/Tokyo` (Japan Standard Time, UTC+09:00). -/
def tokyoOffset : Int := 32400

/-- The zero `Time{}`: 0001-01-01T00:00:00Z. -/
def zeroTime : Time := ⟨-62135596800, 0⟩

/-- Seconds from the absolute epoch of package `time` to the Unix epoch
(`unixToInternal + internalToAbsolute`). The epoch is 1 January of the year
-292277022399, that of the releases up to Go 1.22; the later releases count from
306 days earlier, which gives the same dates wherever both counts fit in 64 bits. -/
def unixToAbsolute : Int := 9223372028715321600

/-- Go `time.Date` in a location of fixed offset: the month is normalised into
`1..12` overflowing into the year, and day, hour, minute and second overflow
into the day count. The second count is a 64-bit integer: it is the exact count
reduced by `wrapInt`, which leaves it as it is for the years `0..292277026595`.
This is the arithmetic of the releases up to Go 1.22 for every year from
-292277022399 on; the later releases agree with it as long as their day count,
where a multiplication comes before a division, stays within 64 bits, and may
differ for years beyond `10^16`. -/
def Date (year month day hour min sec offset : Int) : Time :=
  let m := month - 1
  let year := year + m / 12
  let month := m % 12 + 1
  let d := daysFromCivil year month 1 + (day - 1)
  ⟨wrapInt (d * 86400 + (hour * 3600 + min * 60 + sec) - offset), offset⟩

/-- Go `Time.abs`: the wall-clock seconds counted from the absolute epoch, an
unsigned 64-bit integer. -/
def Time.abs (t : Time) : Int :=
  (t.unix + t.offset + unixToAbsolute) % 18446744073709551616

/-- Day number (from 1970-01-01) of the wall-clock date of a `Time`. -/
def Time.localDays (t : Time) : Int :=
  t.abs / 86400 - unixToAbsolute / 86400

/-- Go `Time.Date`: year, month and day in the `Time`'s location. -/
def Time.civil (t : Time) : Int × Int × Int :=
  civilFromDays t.localDays

/-- Go `Time.Clock` as seconds elapsed in the wall-clock day. -/
def Time.secondsOfDay (t : Time) : Int :=
  t.abs % 86400

/-- Go `Time.Weekday`: `0` is Sunday, ..., `6` is Saturday. The absolute epoch
is a Monday, so the weekday is read off the absolute seconds moved on by one
day, within the week. -/
def Time.Weekday (t : Time) : Int :=
  (t.abs + 86400) % 18446744073709551616 % 604800 / 86400

/-- Go `Time.In` for a location of fixed offset: same instant, other wall clock. -/
def Time.In (t : Time) (offset : Int) : Time :=
  ⟨t.unix, offset⟩

/-- Go `Time.AddDate`: `Date` of the wall-clock fields plus the increments, in
the same location (the clock is handed over as seconds of the day, which `Date`
adds up in the same way as hour, minute and second). -/
def Time.AddDate (t : Time) (years months days : Int) : Time :=
  let (year, month, day) := t.civil
  Date (year + years) (month + months) (day + days) 0 0 t.secondsOfDay t.offset

/-- Go `time.appendInt`: decimal with zero padding to `width` digits, a minus
sign going in front of the padding. -/
def appendInt (x : Int) (width : Nat) : List Char :=
  if x < 0 then '-' :: zeroPad width (natDigits x.natAbs)
  else zeroPad width (natDigits x.natAbs)

/-- Go `Time.Format("2006-01-02")`. -/
def Time.FormatDate (t : Time) : String :=
  let (year, month, day) := t.civil
  String.mk (appendInt year 4 ++ '-' :: appendInt month 2 ++ '-' :: appendInt day 2)

/-- Go `time.getnum`: one or two leading digits, exactly two when `fixed`. -/
def getnum (s : List Char) (fixed : Bool) : Option (Int × List Char) :=
  match s with
  | a :: b :: rest =>
    if isDigit a then
      if isDigit b then some ((digitVal a * 10 + digitVal b : Nat), rest)
      else if fixed then none else some ((digitVal a : Nat), b :: rest)
    else none
  | [a] => if isDigit a && !fixed then some ((digitVal a : Nat), []) else none
  | [] => none

/-- Layout element `2006`: exactly four digits. -/
def getYear (s : List Char) : Option (Int × List Char) :=
  match s with
  | a :: b :: c :: d :: rest =>
    if isDigit a && isDigit b && isDigit c && isDigit d then
      some ((digitVal a * 1000 + digitVal b * 100 + digitVal c * 10 + digitVal d : Nat), rest)
    else none
  | _ => none

/-- A literal character of the layout. -/
def expect (c : Char) (s : List Char) : Option (List Char) :=
  match s with
  | x :: rest => if x = c then some rest else none
  | [] => none

/-- Fractional seconds after the seconds field, accepted although the layout
has none: a `.` or `,` followed by at least one digit; all digits are skipped. -/
def skipFraction (s : List Char) : List Char :=
  match s with
  | p :: d :: rest =>
    if (p = '.' ∨ p = ',') ∧ isDigit d = true then rest.dropWhile isDigit else s
  | _ => s

/-- Layout element `Z07:00`: `Z`, or a sign, two digits, `:` and two digits
(hours up to 24, minutes up to 60); gives the offset in seconds. -/
def getZone (s : List Char) : Option (Int × List Char) :=
  match s with
  | 'Z' :: rest => some (0, rest)
  | sign :: h1 :: h2 :: colon :: m1 :: m2 :: rest =>
    if colon = ':' then
      match getnum [h1, h2] true, getnum [m1, m2] true with
      | some (hr, _), some (mm, _) =>
        if hr > 24 ∨ mm > 60 then none
        else if sign = '+' then some ((hr * 60 + mm) * 60, rest)
        else if sign = '-' then some (-((hr * 60 + mm) * 60), rest)
        else none
      | _, _ => none
    else none
  | _ => none

/-- Go `time.Parse(time.RFC3339, value)`, layout `2006-01-02T15:04:05Z07:00`;
`none` is the parse error. The fields are read as the general parser of package
`time` reads them (its fast path for strict RFC 3339 input accepts a subset and
gives the same `Time`): four-digit year, two-digit month and day, hour of one or
two digits, two-digit minute and second, optional fractional seconds, zone; then
no text may be left and the day must exist in the month. The result keeps the
offset written in the string (the location is `UTC`, `Local` when its offset
agrees, or a fabricated fixed zone: in each case the same offset). -/
def ParseRFC3339 (value : String) : Option Time :=
  match getYear value.data with
  | none => none
  | some (year, s) =>
  match expect '-' s with
  | none => none
  | some s =>
  match getnum s true with
  | none => none
  | some (month, s) =>
  if month < 1 ∨ 12 < month then none else
  match expect '-' s with
  | none => none
  | some s =>
  match getnum s true with
  | none => none
  | some (day, s) =>
  match expect 'T' s with
  | none => none
  | some s =>
  match getnum s false with
  | none => none
  | some (hour, s) =>
  if 24 ≤ hour then none else
  match expect ':' s with
  | none => none
  | some s =>
  match getnum s true with
  | none => none
  | some (min, s) =>
  if 60 ≤ min then none else
  match expect ':' s with
  | none => none
  | some s =>
  match getnum s true with
  | none => none
  | some (sec, s) =>
  if 60 ≤ sec then none else
  match getZone (skipFraction s) with
  | none => none
  | some (zoneOffset, s) =>
  if s ≠ [] then none
  else if day < 1 ∨ daysIn month year < day then none
  else
    let t := Date year month day hour min sec 0
    some ⟨t.unix - zoneOffset, zoneOffset⟩

/-- Go `time.Parse("2006-01-02", value)`; the result is midnight UTC. -/
def ParseDate (value : String) : Option Time :=
  match getYear value.data with
  | none => none
  | some (year, s) =>
  match expect '-' s with
  | none => none
  | some s =>
  match getnum s true with
  | none => none
  | some (month, s) =>
  if month < 1 ∨ 12 < month then none else
  match expect '-' s with
  | none => none
  | some s =>
  match getnum s true with
  | none => none
  | some (day, s) =>
  if s ≠ [] then none
  else if day < 1 ∨ daysIn month year < day then none
  else some (Date year month day 0 0 0 0)

end time

namespace ToggleTool

open time

/-! ## Go maps -/

/-- A Go `map`: association list with distinct keys. -/
abbrev GoMap (κ ν : Type) := List (κ × ν)

/-- Lookup `m[k]` with the comma-ok result as an option. -/
def mapGet {κ ν : Type} [DecidableEq κ] : GoMap κ ν → κ → Option ν
  | [], _ => none
  | (k', v) :: rest, k => if k' = k then some v else mapGet rest k

/-- Assignment `m[k] = v`: replaces the value of an existing key, adds the key
otherwise. -/
def mapSet {κ ν : Type} [DecidableEq κ] : GoMap κ ν → κ → ν → GoMap κ ν
  | [], k, v => [(k, v)]
  | (k', v') :: rest, k, v =>
    if k' = k then (k, v) :: rest else (k', v') :: mapSet rest k v

/-- The keys of a map. -/
def mapKeys {κ ν : Type} (m : GoMap κ ν) : List κ :=
  m.map Prod.fst

/-! ## Data model -/

/-- Source `TimeEntrySearchRequest`. -/
structure TimeEntrySearchRequest where
  Billable : Bool := false
  ClientIDs : List Int := []
  Description : String := ""
  EndDate : String := ""
  GroupIDs : List Int := []
  Grouped : Bool := false
  HideAmounts : Bool := false
  MaxDuration : Int := 0
  MinDuration : Int := 0
  OrderBy : String := ""
  OrderDir : String := ""
  PageSize : Int := 0
  ProjectIDs : List Int := []
  Rounding : Int := 0
  RoundingMinutes : Int := 0
  StartDate : String := ""
  TagIDs : List Int := []
  TaskIDs : List Int := []
  TimeEntryIDs : List Int := []
  UserIDs : List Int := []
  deriving DecidableEq, Repr

/-- Element type of `TimeEntryResponseItem.TimeEntries`. -/
structure TimeEntry where
  Start : String
  Seconds : Int
  deriving DecidableEq, Repr

/-- Source `TimeEntryResponseItem`. -/
structure TimeEntryResponseItem where
  TagIDs : List Int
  TimeEntries : List TimeEntry
  deriving DecidableEq, Repr

/-- The aggregation `dateTagSeconds`: date string to (tag id to seconds). -/
abbrev DailyTagSeconds := GoMap String (GoMap Int Int)

/-! ## Search request (`main`, lines 79-85) -/

/-- The `requestData` of `main` for a resolved year and month. -/
def buildRequest (year month : Int) : TimeEntrySearchRequest :=
  let startOfMonth := Date year month 1 0 0 0 tokyoOffset
  let endOfMonth := startOfMonth.AddDate 0 1 (-1)
  { StartDate := startOfMonth.FormatDate
    EndDate := endOfMonth.FormatDate
    PageSize := 3000 }

/-! ## Aggregator (`main`, lines 141-163) -/

/-- The inner loop `for _, tagID := range item.TagIDs` on the inner map of one
date: `m[tagID] += seconds`. -/
def addTagSeconds (inner : GoMap Int Int) (tagIDs : List Int) (seconds : Int) : GoMap Int Int :=
  tagIDs.foldl (fun m tagID => mapSet m tagID (wrapInt ((mapGet m tagID).getD 0 + seconds))) inner

/-- One pass of the body of `for _, entry := range item.TimeEntries`; `none` is
the `log.Fatalf` on a timestamp that does not parse. -/
def aggregateEntry (dateTagSeconds : DailyTagSeconds) (tagIDs : List Int) (entry : TimeEntry) :
    Option DailyTagSeconds :=
  match ParseRFC3339 entry.Start with
  | none => none
  | some date =>
    let dateStr := date.FormatDate
    let dateTagSeconds :=
      if mapGet dateTagSeconds dateStr = none then mapSet dateTagSeconds dateStr []
      else dateTagSeconds
    some (mapSet dateTagSeconds dateStr
      (addTagSeconds ((mapGet dateTagSeconds dateStr).getD []) tagIDs entry.Seconds))

/-- The loop over the entries of one item. -/
def aggregateEntries (tagIDs : List Int) : List TimeEntry → DailyTagSeconds → Option DailyTagSeconds
  | [], acc => some acc
  | entry :: rest, acc =>
    match aggregateEntry acc tagIDs entry with
    | none => none
    | some acc' => aggregateEntries tagIDs rest acc'

/-- The loop over the items, from a given state of `dateTagSeconds`. -/
def aggregateFrom : List TimeEntryResponseItem → DailyTagSeconds → Option DailyTagSeconds
  | [], acc => some acc
  | item :: rest, acc =>
    match aggregateEntries item.TagIDs item.TimeEntries acc with
    | none => none
    | some acc' => aggregateFrom rest acc'

/-- The aggregation of `main`: `dateTagSeconds` after the loops, `none` when a
timestamp fails to parse. -/
def aggregate (items : List TimeEntryResponseItem) : Option DailyTagSeconds :=
  aggregateFrom items []

/-- The value `dateTagSeconds[date][tagID]` (zero when a key is absent). -/
def valueAt (dateTagSeconds : DailyTagSeconds) (date : String) (tagID : Int) : Int :=
  (mapGet ((mapGet dateTagSeconds date).getD []) tagID).getD 0

/-! ## Workday Filter -/

/-- Source `isWeekendOrHoliday`; `holidayName` is `jpholiday.Name`, and `none` is
the `log.Fatalf` on the re-parse of the formatted date. -/
def isWeekendOrHoliday (holidayName : Time → String) (date : Time) : Option Bool :=
  if date.Weekday = 6 ∨ date.Weekday = 0 then some true
  else
    match ParseDate date.FormatDate with
    | none => none
    | some day => if holidayName day ≠ "" then some true else some false

/-! ## Report Renderer (`main`, lines 165-212) -/

/-- What the program writes, in order. -/
inductive Output where
  /-- A line on standard output (`fmt.Println`, `fmt.Printf` ending in a newline). -/
  | println (line : String)
  /-- Text on standard output without a newline (`fmt.Printf`). -/
  | print (text : String)
  /-- A line of `log.Printf` on standard error. -/
  | logPrintf (line : String)
  /-- A table handed to `tablewriter` by `table.Render()`. -/
  | table (header : List String) (rows : List (List String)) (footer : List String)
  deriving DecidableEq, Repr

/-- The banner `strings.Repeat("=", 60)`. -/
def banner : String :=
  String.mk (List.replicate 60 '=')

/-- The expression `fmt.Sprintf("%02d:%02d:%02d", s / 3600, (s % 3600) / 60, s % 60)`
of lines 196-203 and 206-209, with Go's truncating `/` and `%`. -/
def formatHMS (seconds : Int) : String :=
  fmtIntPad 2 (seconds.tdiv 3600) ++ ":" ++ fmtIntPad 2 ((seconds.tmod 3600).tdiv 60) ++ ":" ++
    fmtIntPad 2 (seconds.tmod 60)

/-- The table row of one `(tagID, seconds)` pair. -/
def tagRow (tagIdNameMap : GoMap Int String) (kv : Int × Int) : List String :=
  [(mapGet tagIdNameMap kv.1).getD "Unknown Tag", formatHMS kv.2]

/-- The variable `dailyTotalSeconds` after the loop over a date's tags, visited
in the given order. -/
def dailyTotalSeconds (visited : List (Int × Int)) : Int :=
  visited.foldl (fun total kv => wrapInt (total + kv.2)) 0

/-- The block printed for a date that is not skipped; `visited` is the date's
inner map in the order in which `range` visits it. -/
def renderBlock (tagIdNameMap : GoMap Int String) (date : String) (visited : List (Int × Int)) :
    List Output :=
  [Output.println banner, Output.println ("Date: " ++ date), Output.println banner,
    Output.table ["Tag Name", "Hours"] (visited.map (tagRow tagIdNameMap))
      ["Total", formatHMS (dailyTotalSeconds visited)]]

/-- Whether the first string sorts strictly before the second (`<` on Go
strings), on character lists. -/
def charsLess : List Char → List Char → Bool
  | _, [] => false
  | [], _ :: _ => true
  | a :: as, b :: bs => if a.toNat < b.toNat then true else if b.toNat < a.toNat then false
      else charsLess as bs

/-- Insertion of a date into a sorted list of dates. -/
def insertDate (date : String) : List String → List String
  | [] => [date]
  | d :: ds => if charsLess d.data date.data then d :: insertDate date ds else date :: d :: ds

/-- The slice `dates` after `sort.Slice`: the keys in ascending order. -/
def sortDates (dates : List String) : List String :=
  dates.foldr insertDate []

/-- Result of a part of the run: what was written, and the message of the
`log.Fatalf` that ended the process, if any. -/
structure Printed where
  out : List Output
  fatal : Option String
  deriving DecidableEq, Repr

/-- The loop `for _, date := range dates` of the renderer. `order date m` is the
order in which `range` visits the inner map `m` of `date`. -/
def renderDates (holidayName : Time → String) (tagIdNameMap : GoMap Int String)
    (order : String → GoMap Int Int → List (Int × Int)) (dateTagSeconds : DailyTagSeconds) :
    List String → Printed
  | [] => ⟨[], none⟩
  | date :: rest =>
    let parsed := ParseDate date
    let logged := if parsed = none then [Output.logPrintf "Error while parsing date"] else []
    match isWeekendOrHoliday holidayName (parsed.getD zeroTime) with
    | none => ⟨logged, some "Error while parsing date"⟩
    | some skip =>
      let block :=
        if skip then []
        else renderBlock tagIdNameMap date (order date ((mapGet dateTagSeconds date).getD []))
      let tail := renderDates holidayName tagIdNameMap order dateTagSeconds rest
      ⟨logged ++ block ++ tail.out, tail.fatal⟩

/-- The renderer: the date blocks in ascending order of date, then the closing
banner (not reached after a `log.Fatalf`). -/
def render (holidayName : Time → String) (tagIdNameMap : GoMap Int String)
    (order : String → GoMap Int Int → List (Int × Int)) (dateTagSeconds : DailyTagSeconds) :
    Printed :=
  let blocks := renderDates holidayName tagIdNameMap order dateTagSeconds
    (sortDates (mapKeys dateTagSeconds))
  match blocks.fatal with
  | some msg => ⟨blocks.out, some msg⟩
  | none => ⟨blocks.out ++ [Output.println banner], none⟩

/-! ## The run (`main`) -/

/-- An HTTP response as `main` uses it: the status code, and the two results of
`io.ReadAll(resp.Body)`, the bytes read and the read error (`none` is `nil`).
Closing the body, deferred to the end of `main`, is taken to succeed. -/
structure Response where
  StatusCode : Int
  Body : String
  ReadError : Option String
  deriving DecidableEq, Repr

/-- How a run ends. -/
inductive Outcome where
  /-- Ended by `log.Fatalf` (exit status 1) after writing `out`. -/
  | fatal (out : List Output) (msg : String)
  /-- Ended by a run-time panic, the dereference of a `nil` response. -/
  | panicked
  /-- Returned early from `main` after writing an error message. -/
  | returned (out : List Output)
  /-- Ran to the end of `main`, having written `out`. -/
  | completed (out : List Output)
  deriving DecidableEq, Repr

/-- The branch `if err != nil` after a request (lines 95-98 and 118-121): the
message evaluates `resp.StatusCode`, which panics on a `nil` response. -/
def sendError (resp : Option Response) (err : String) : Outcome :=
  match resp with
  | none => Outcome.panicked
  | some r =>
    Outcome.returned
      [Output.print
        ("Error while sending request: " ++ fmtInt r.StatusCode ++ ", Error: " ++ err)]

/-- A number below 10000 written as four decimal digits. -/
def fourDigits (y : Nat) : List Char :=
  [digitChar (y / 1000 % 10), digitChar (y / 100 % 10), digitChar (y / 10 % 10), digitChar (y % 10)]

/-- A number below 100 written as two decimal digits. -/
def twoDigits (m : Nat) : List Char :=
  [digitChar (m / 10 % 10), digitChar (m % 10)]

/-- The argument string `YYYY-MM` of a year and a month. -/
def monthArgString (y m : Nat) : String :=
  String.mk (fourDigits y ++ '-' :: twoDigits m)

/-- A decimal integer in the widest sense: an optional sign followed by one or
more decimal digits (of any magnitude). -/
def isDecimalInteger (s : String) : Bool :=
  match s.data with
  | [] => false
  | c :: cs =>
    let ds := if c = '-' ∨ c = '+' then cs else c :: cs
    !ds.isEmpty && ds.all isDigit

/-- Mathematical value of a decimal integer (`0` when the string is not one). -/
def decimalValue (s : String) : Int :=
  match s.data with
  | [] => 0
  | c :: cs =>
    let ds := if c = '-' ∨ c = '+' then cs else c :: cs
    match parseDigits ds 0 with
    | none => 0
    | some n => if c = '-' then -(n : Int) else (n : Int)

/-- The month argument is malformed: splitting on `-` does not give exactly two
parts, or one of the two parts is not a decimal integer, or the second part is
an integer outside `1..12`. -/
def Malformed (monthArg : String) : Bool :=
  match strings.Split monthArg '-' with
  | [p0, p1] =>
    !isDecimalInteger p0 || !isDecimalInteger p1 ||
      decide (decimalValue p1 < 1) || decide (12 < decimalValue p1)
  | _ => true

/-! ### Vocabulary of the aggregation claims -/

/-- The date key under which the aggregation counts an entry: the formatted date
of its parsed start (`none` when the start does not parse). -/
def entryDate (entry : TimeEntry) : Option String :=
  (ParseRFC3339 entry.Start).map Time.FormatDate

/-- Every start timestamp of every entry of every item parses. -/
def AllParse (items : List TimeEntryResponseItem) : Prop :=
  ∀ item ∈ items, ∀ entry ∈ item.TimeEntries, ParseRFC3339 entry.Start ≠ none

/-- The sum, over every item, every entry of the item whose date is `date`, and
every occurrence of `tagID` in the item's tag id list, of the entry's seconds. -/
def expectedSeconds (items : List TimeEntryResponseItem) (date : String) (tagID : Int) : Int :=
  (items.map fun item =>
    ((item.TimeEntries.filter fun entry => decide (entryDate entry = some date)).map fun entry =>
      ((item.TagIDs.filter fun id => decide (id = tagID)).map fun _ => entry.Seconds).sum).sum).sum

/-- The sum of the per-tag seconds of the inner map of one date. -/
def sumSeconds (inner : GoMap Int Int) : Int :=
  (inner.map Prod.snd).sum

/-- Every value of the aggregation is a 64-bit `int`. -/
def InRange (agg : DailyTagSeconds) : Prop :=
  ∀ d t, wrapInt (valueAt agg d t) = valueAt agg d t

/-- The seconds one entry adds at `(date, tagID)`: its seconds once per occurrence
of the tag in the tag list when the entry falls on the date, nothing otherwise. -/
def entryShare (tagIDs : List Int) (d : String) (t : Int) (entry : TimeEntry) : Int :=
  if entryDate entry = some d then
    ((tagIDs.filter fun id => decide (id = t)).map fun _ => entry.Seconds).sum
  else 0

/-! ### Vocabulary of the calendar claims -/

/-- The ten characters `YYYY-MM-DD` of a civil date. -/
def dateChars (y m d : Nat) : List Char :=
  fourDigits y ++ '-' :: (twoDigits m ++ '-' :: twoDigits d)

/-- A civil date of the years `0..9999`: month in `1..12`, day within the month. -/
def ValidDate (y m d : Nat) : Prop :=
  y ≤ 9999 ∧ 1 ≤ m ∧ m ≤ 12 ∧ 1 ≤ d ∧ (d : Int) ≤ daysIn m y

/-- The string is the `YYYY-MM-DD` form of a valid civil date. -/
def IsDateKey (key : String) : Prop :=
  ∃ y m d : Nat, ValidDate y m d ∧ key = String.mk (dateChars y m d)

/-- The calendar date, in the reporting timezone `Asia/Tokyo`, of the instant a
timestamp denotes. -/
def tokyoDate (value : String) : Option String :=
  (ParseRFC3339 value).map fun t => (t.In tokyoOffset).FormatDate

/-- The date the Workday Filter keeps: it parses, its weekday is neither Saturday
(`6`) nor Sunday (`0`), and the holiday calendar has no name for it. -/
def IsWorkday (holidayName : Time → String) (date : String) : Prop :=
  ∃ day, ParseDate date = some day ∧ day.Weekday ≠ 6 ∧ day.Weekday ≠ 0 ∧ holidayName day = ""

/-- The line that opens the block of a date in the rendered output. -/
def dateLine (date : String) : Output :=
  Output.println ("Date: " ++ date)

/-- The last day of a month: 28, 29, 30 or 31 according to the month and to
whether the year is a leap year. -/
def lastDayOfMonth (y m : Nat) : Nat :=
  if m = 2 then (if y % 4 = 0 ∧ (y % 100 ≠ 0 ∨ y % 400 = 0) then 29 else 28)
  else if m = 4 ∨ m = 6 ∨ m = 9 ∨ m = 11 then 30
  else 31

/-- No tag has been added to the inner map of the date. -/
def Untouched (agg : DailyTagSeconds) (d : String) : Prop :=
  mapGet agg d = none ∨ mapGet agg d = some []

/-! ### Vocabulary of the status-code claim -/

/-- The year of a formatted date: four digits up to 9999, all the decimal digits
of the year beyond. -/
def yearDigits (y : Nat) : List Char :=
  if y ≤ 9999 then fourDigits y else natDigits y

/-- The characters of a formatted date whose year may have more than four
digits. -/
def longDateChars (y m d : Nat) : List Char :=
  yearDigits y ++ '-' :: (twoDigits m ++ '-' :: twoDigits d)

/-- The last year all of whose instants have a 64-bit count of Unix seconds. -/
def maxYear : Nat := 292277026595

/-! # Theorems -/

/-! ## Machine integers -/

/-- Reducing twice is reducing once. -/
theorem wrapInt_idem (x : Int) : wrapInt (wrapInt x) = wrapInt x := by
  unfold wrapInt; omega

/-- Addition may be reduced at any point (arithmetic modulo `2^64`). -/
theorem wrapInt_add_left (x y : Int) : wrapInt (wrapInt x + y) = wrapInt (x + y) := by
  unfold wrapInt; omega

/-- A value that fits in an `int` is its own reduction. -/
theorem wrapInt_of_range (x : Int) (h : minInt ≤ x ∧ x ≤ maxInt) : wrapInt x = x := by
  unfold wrapInt; unfold minInt maxInt at h; omega

/-! ## Digits -/

/-- The character of a value below ten is a digit. -/
theorem isDigit_digitChar {n : Nat} (h : n < 10) : isDigit (digitChar n) = true := by
  interval_cases n <;> rfl

/-- The value of the character of a value below ten. -/
theorem digitVal_digitChar {n : Nat} (h : n < 10) : digitVal (digitChar n) = n := by
  interval_cases n <;> rfl

/-- A digit has a value below ten. -/
theorem digitVal_lt {c : Char} (h : isDigit c = true) : digitVal c < 10 := by
  simp only [isDigit, Bool.and_eq_true, decide_eq_true_eq] at h
  unfold digitVal
  omega

/-- A digit is the character of its value. -/
theorem digitChar_digitVal {c : Char} (h : isDigit c = true) : digitChar (digitVal c) = c := by
  simp only [isDigit, Bool.and_eq_true, decide_eq_true_eq] at h
  unfold digitChar digitVal
  rw [show 48 + (c.toNat - 48) = c.toNat by omega]
  exact Char.ofNat_toNat c

/-- No digit is the separator `-`. -/
theorem digitChar_ne_minus {n : Nat} (h : n < 10) : digitChar n ≠ '-' := by
  interval_cases n <;> decide

/-- No digit is the sign `+`. -/
theorem digitChar_ne_plus {n : Nat} (h : n < 10) : digitChar n ≠ '+' := by
  interval_cases n <;> decide

/-! ## Month Resolver -/

/-- Splitting `dddd-dd` on `-` gives its two runs of digits. -/
theorem splitChars_digits_two (a b c d e f : Nat) (ha : a < 10) (hb : b < 10) (hc : c < 10)
    (hd : d < 10) (he : e < 10) (hf : f < 10) :
    strings.splitChars '-'
      ([digitChar a, digitChar b, digitChar c, digitChar d] ++ '-' :: [digitChar e, digitChar f])
      = [[digitChar a, digitChar b, digitChar c, digitChar d], [digitChar e, digitChar f]] := by
  simp [strings.splitChars, digitChar_ne_minus ha, digitChar_ne_minus hb, digitChar_ne_minus hc,
    digitChar_ne_minus hd, digitChar_ne_minus he, digitChar_ne_minus hf]

/-- `Atoi` reads back a number written as four digits. -/
theorem Atoi_fourDigits (y : Nat) (hy : y ≤ 9999) :
    strconv.Atoi (String.mk (fourDigits y)) = some (y : Int) := by
  have h1 : y / 1000 % 10 < 10 := Nat.mod_lt _ (by decide)
  have h2 : y / 100 % 10 < 10 := Nat.mod_lt _ (by decide)
  have h3 : y / 10 % 10 < 10 := Nat.mod_lt _ (by decide)
  have h4 : y % 10 < 10 := Nat.mod_lt _ (by decide)
  have hv : ((0 * 10 + y / 1000 % 10) * 10 + y / 100 % 10) * 10 + y / 10 % 10 = y / 10 := by omega
  simp only [strconv.Atoi, fourDigits, parseDigits, isDigit_digitChar h1, isDigit_digitChar h2,
    isDigit_digitChar h3, isDigit_digitChar h4, digitVal_digitChar h1, digitVal_digitChar h2,
    digitVal_digitChar h3, digitVal_digitChar h4, digitChar_ne_minus h1, digitChar_ne_plus h1,
    or_self, if_false, if_true, hv]
  have hv2 : y / 10 * 10 + y % 10 = y := by omega
  simp only [hv2, minInt, maxInt]
  rw [if_pos]
  constructor <;> omega

/-- `Atoi` reads back a number written as two digits. -/
theorem Atoi_twoDigits (m : Nat) (hm : m ≤ 99) :
    strconv.Atoi (String.mk (twoDigits m)) = some (m : Int) := by
  have h3 : m / 10 % 10 < 10 := Nat.mod_lt _ (by decide)
  have h4 : m % 10 < 10 := Nat.mod_lt _ (by decide)
  have hv : (0 * 10 + m / 10 % 10) * 10 + m % 10 = m := by omega
  simp only [strconv.Atoi, twoDigits, parseDigits, isDigit_digitChar h3, isDigit_digitChar h4,
    digitVal_digitChar h3, digitVal_digitChar h4, digitChar_ne_minus h3, digitChar_ne_plus h3,
    or_self, if_false, if_true, hv, minInt, maxInt]
  rw [if_pos]
  constructor <;> omega

/-- Claim C3. For every year `y` in `0..9999` written as four decimal digits and every month `m`
in `1..12` written as two decimal digits, `parseMonthArgument` applied to an argument list
whose second element is the string `YYYY-MM` (whatever the program name and the later
arguments) returns exactly `(y, m)` and no error. -/
theorem parseMonthArgument_valid (now : Int × Int) (prog : String) (rest : List String)
    (y m : Nat) (hy : y ≤ 9999) (hm1 : 1 ≤ m) (hm12 : m ≤ 12) :
    parseMonthArgument now (prog :: monthArgString y m :: rest) = ((y : Int), (m : Int), none) := by
  have hs : strings.Split (monthArgString y m) '-'
      = [String.mk (fourDigits y), String.mk (twoDigits m)] := by
    simp only [strings.Split, monthArgString, fourDigits, twoDigits]
    rw [splitChars_digits_two _ _ _ _ _ _ (Nat.mod_lt _ (by decide)) (Nat.mod_lt _ (by decide))
      (Nat.mod_lt _ (by decide)) (Nat.mod_lt _ (by decide)) (Nat.mod_lt _ (by decide))
      (Nat.mod_lt _ (by decide))]
    rfl
  simp only [parseMonthArgument, hs, Atoi_fourDigits y hy, Atoi_twoDigits m (by omega)]
  rw [if_neg]
  omega

/-- The argument `2025-06` resolves to June 2025. -/
theorem parseMonthArgument_valid_witness :
    parseMonthArgument (2026, 11) ["toggle-tool", "2025-06"] = (2025, 6, none) :=
  parseMonthArgument_valid (2026, 11) "toggle-tool" [] 2025 6 (by decide) (by decide) (by decide)

/-- A digit run that parses consists of digits. -/
theorem parseDigits_all_isDigit (ds : List Char) (acc n : Nat) (h : parseDigits ds acc = some n) :
    ds.all isDigit = true := by
  induction ds generalizing acc with
  | nil => rfl
  | cons c cs ih =>
    simp only [parseDigits] at h
    by_cases hc : isDigit c = true
    · rw [if_pos hc] at h
      simp [hc, ih _ h]
    · rw [if_neg hc] at h
      exact absurd h (by simp)

/-- What `Atoi` accepts is a decimal integer, and its result is the value of that integer. -/
theorem Atoi_some_decimal (s : String) (v : Int) (h : strconv.Atoi s = some v) :
    isDecimalInteger s = true ∧ decimalValue s = v := by
  unfold strconv.Atoi at h
  unfold isDecimalInteger decimalValue
  cases hd : s.data with
  | nil => rw [hd] at h; exact absurd h (by simp)
  | cons c cs =>
    rw [hd] at h
    simp only at h ⊢
    generalize hds : (if c = '-' ∨ c = '+' then cs else c :: cs) = ds at h ⊢
    cases ds with
    | nil => exact absurd h (by simp)
    | cons x xs =>
      simp only at h
      cases hp : parseDigits (x :: xs) 0 with
      | none => rw [hp] at h; exact absurd h (by simp)
      | some n =>
        rw [hp] at h
        simp only at h ⊢
        generalize (if c = '-' then -(n : Int) else (n : Int)) = v' at h ⊢
        by_cases hr : minInt ≤ v' ∧ v' ≤ maxInt
        · rw [if_pos hr] at h
          refine ⟨?_, Option.some.inj h⟩
          simp [parseDigits_all_isDigit _ _ _ hp]
        · rw [if_neg hr] at h
          exact absurd h (by simp)

/-- Claim C4. For every argument list with at least two elements whose second element is
malformed (splitting it on `-` does not give exactly two parts, or one of the two parts is
not a decimal integer, or the second part is an integer outside `1..12`),
`parseMonthArgument` returns an error together with the zero year and the zero month. -/
theorem parseMonthArgument_malformed (now : Int × Int) (prog monthArg : String)
    (rest : List String) (h : Malformed monthArg = true) :
    ∃ msg, parseMonthArgument now (prog :: monthArg :: rest) = (0, 0, some msg) := by
  unfold Malformed at h
  unfold parseMonthArgument
  simp only
  split
  · rename_i p0 p1 hs
    rw [hs] at h
    simp only at h
    cases h0 : strconv.Atoi p0 with
    | none => exact ⟨_, rfl⟩
    | some year =>
      cases h1 : strconv.Atoi p1 with
      | none => exact ⟨_, rfl⟩
      | some monthInt =>
        simp only
        have d0 := Atoi_some_decimal p0 year h0
        have d1 := Atoi_some_decimal p1 monthInt h1
        have hr : monthInt < 1 ∨ monthInt > 12 := by
          rw [d0.1, d1.1, d1.2] at h
          simpa using h
        rw [if_pos hr]
        exact ⟨_, rfl⟩
  · exact ⟨_, rfl⟩

/-- The argument `2025-13` is malformed and is rejected. -/
theorem parseMonthArgument_malformed_witness :
    Malformed "2025-13" = true ∧
      ∃ msg, parseMonthArgument (2026, 11) ["toggle-tool", "2025-13"] = (0, 0, some msg) :=
  ⟨by decide, parseMonthArgument_malformed (2026, 11) "toggle-tool" "2025-13" [] (by decide)⟩

example : Malformed "2025-06-01" = true := by decide
example : Malformed "2025-6x" = true := by decide
example : Malformed "2025-06" = false := by decide
example : Malformed "2025-+6" = false := by decide
example : Malformed "202506" = true := by decide

/-! ## Durations -/

/-- Reading the digits produced onto an accumulator continues with the number produced. -/
theorem parseDigits_natDigitsAux (fuel n : Nat) (acc : List Char) (h : n < fuel) :
    parseDigits (natDigitsAux fuel n acc) 0 = parseDigits acc n := by
  induction fuel generalizing n acc with
  | zero => omega
  | succ fuel ih =>
    unfold natDigitsAux
    by_cases hn : n < 10
    · rw [if_pos hn]
      simp [parseDigits, isDigit_digitChar hn, digitVal_digitChar hn]
    · rw [if_neg hn, ih (n / 10) _ (by omega)]
      have hm : n % 10 < 10 := Nat.mod_lt _ (by decide)
      simp only [parseDigits, isDigit_digitChar hm, digitVal_digitChar hm, if_true]
      congr 1
      omega

/-- The decimal digits of a number read back as that number. -/
theorem parseDigits_natDigits (n : Nat) : parseDigits (natDigits n) 0 = some n := by
  unfold natDigits
  rw [parseDigits_natDigitsAux _ _ _ (Nat.lt_succ_self n)]
  rfl

/-- Leading zeros do not change the number read. -/
theorem parseDigits_zeroPad (width : Nat) (ds : List Char) :
    parseDigits (zeroPad width ds) 0 = parseDigits ds 0 := by
  unfold zeroPad
  induction (width - ds.length) with
  | zero => rfl
  | succ k ih =>
    rw [List.replicate_succ, List.cons_append]
    simpa [parseDigits, isDigit, digitVal] using ih

/-- Padding reaches the requested width. -/
theorem length_zeroPad (width : Nat) (ds : List Char) : width ≤ (zeroPad width ds).length := by
  simp only [zeroPad, List.length_append, List.length_replicate]
  omega

/-- The verb `%0Nd` on a non-negative value: its zero-padded digits. -/
theorem fmtIntPad_natCast (width n : Nat) :
    fmtIntPad width (n : Int) = String.mk (zeroPad width (natDigits n)) := by
  unfold fmtIntPad
  rw [if_neg (by omega)]
  simp

/-- The rendered duration of a non-negative count, field by field. -/
theorem formatHMS_natCast (s : Nat) :
    formatHMS (s : Int) = String.mk (zeroPad 2 (natDigits (s / 3600)) ++
      ':' :: (zeroPad 2 (natDigits (s % 3600 / 60)) ++ ':' :: zeroPad 2 (natDigits (s % 60)))) := by
  unfold formatHMS
  have h1 : (s : Int).tdiv 3600 = ((s / 3600 : Nat) : Int) := by
    rw [Int.tdiv_eq_ediv (by omega) (by omega)]; norm_cast
  have h2 : ((s : Int).tmod 3600).tdiv 60 = ((s % 3600 / 60 : Nat) : Int) := by
    rw [Int.tmod_eq_emod (by omega) (by omega), Int.tdiv_eq_ediv (by omega) (by omega)]; norm_cast
  have h3 : (s : Int).tmod 60 = ((s % 60 : Nat) : Int) := by
    rw [Int.tmod_eq_emod (by omega) (by omega)]; norm_cast
  rw [h1, h2, h3, fmtIntPad_natCast, fmtIntPad_natCast, fmtIntPad_natCast]
  apply String.ext
  simp [String.data_append]

/-- Claim C7. For every non-negative seconds count `s`, the rendered duration is the three
fields `h = s / 3600`, `m = (s mod 3600) / 60`, `sec = s mod 60` (integer division, no
rounding) joined by `:`; each field is a run of decimal digits that reads back as its value
and has at least two characters (zero padding), `m < 60`, `sec < 60` and `3600 * h + 60 * m
+ sec = s`. Moreover 3661 renders as `01:01:01` and 59 renders as `00:00:59`. -/
theorem formatHMS_fields (s : Nat) :
    formatHMS (s : Int) = String.mk (zeroPad 2 (natDigits (s / 3600)) ++
        ':' :: (zeroPad 2 (natDigits (s % 3600 / 60)) ++ ':' :: zeroPad 2 (natDigits (s % 60)))) ∧
      parseDigits (zeroPad 2 (natDigits (s / 3600))) 0 = some (s / 3600) ∧
      parseDigits (zeroPad 2 (natDigits (s % 3600 / 60))) 0 = some (s % 3600 / 60) ∧
      parseDigits (zeroPad 2 (natDigits (s % 60))) 0 = some (s % 60) ∧
      2 ≤ (zeroPad 2 (natDigits (s / 3600))).length ∧
      2 ≤ (zeroPad 2 (natDigits (s % 3600 / 60))).length ∧
      2 ≤ (zeroPad 2 (natDigits (s % 60))).length ∧
      s % 3600 / 60 < 60 ∧ s % 60 < 60 ∧
      3600 * (s / 3600) + 60 * (s % 3600 / 60) + s % 60 = s ∧
      formatHMS 3661 = "01:01:01" ∧ formatHMS 59 = "00:00:59" := by
  refine ⟨formatHMS_natCast s, ?_, ?_, ?_, length_zeroPad _ _, length_zeroPad _ _,
    length_zeroPad _ _, by omega, by omega, by omega, by decide, by decide⟩
  · rw [parseDigits_zeroPad, parseDigits_natDigits]
  · rw [parseDigits_zeroPad, parseDigits_natDigits]
  · rw [parseDigits_zeroPad, parseDigits_natDigits]

/-! ## Go maps -/

/-- Lookup after assignment. -/
theorem mapGet_mapSet {κ ν : Type} [DecidableEq κ] (m : GoMap κ ν) (k k' : κ) (v : ν) :
    mapGet (mapSet m k v) k' = if k = k' then some v else mapGet m k' := by
  induction m with
  | nil => simp [mapSet, mapGet]
  | cons p rest ih =>
    obtain ⟨a, b⟩ := p
    unfold mapSet
    by_cases h : a = k
    · subst h
      rw [if_pos rfl]
      by_cases h' : a = k' <;> simp [mapGet, h']
    · rw [if_neg h]
      unfold mapGet
      rw [ih]
      by_cases h'' : a = k'
      · subst h''
        have : ¬ k = a := fun e => h e.symm
        simp [this]
      · simp [h'']

/-- Assignment adds its key to the keys and nothing else. -/
theorem mem_mapKeys_mapSet {κ ν : Type} [DecidableEq κ] (m : GoMap κ ν) (k x : κ) (v : ν) :
    x ∈ mapKeys (mapSet m k v) ↔ x ∈ mapKeys m ∨ x = k := by
  induction m with
  | nil => simp [mapSet, mapKeys]
  | cons p rest ih =>
    obtain ⟨a, b⟩ := p
    unfold mapSet
    by_cases h : a = k
    · subst h
      simp only [if_true, mapKeys, List.map_cons, List.mem_cons]
      tauto
    · rw [if_neg h]
      simp only [mapKeys, List.map_cons, List.mem_cons] at ih ⊢
      rw [ih]
      tauto

/-- A lookup misses exactly on the keys that are absent. -/
theorem mapGet_eq_none_iff {κ ν : Type} [DecidableEq κ] (m : GoMap κ ν) (k : κ) :
    mapGet m k = none ↔ k ∉ mapKeys m := by
  induction m with
  | nil => simp [mapGet, mapKeys]
  | cons p rest ih =>
    obtain ⟨a, b⟩ := p
    unfold mapGet
    by_cases h : a = k
    · subst h
      simp [mapKeys]
    · rw [if_neg h, ih]
      simp only [mapKeys, List.map_cons, List.mem_cons, not_or]
      constructor
      · intro hk
        exact ⟨fun e => h e.symm, hk⟩
      · intro hk
        exact hk.2

/-! ## Aggregated values -/

/-- After the tag loop of one entry, the value of a tag has grown by the entry's seconds once
per occurrence of the tag in the tag list (modulo `2^64`). -/
theorem addTagSeconds_value (tagIDs : List Int) (seconds : Int) (inner : GoMap Int Int) (t : Int) :
    wrapInt ((mapGet (addTagSeconds inner tagIDs seconds) t).getD 0)
      = wrapInt ((mapGet inner t).getD 0
          + ((tagIDs.filter fun id => decide (id = t)).map fun _ => seconds).sum) := by
  induction tagIDs generalizing inner with
  | nil => simp [addTagSeconds]
  | cons a rest ih =>
    have hstep : addTagSeconds inner (a :: rest) seconds
        = addTagSeconds (mapSet inner a (wrapInt ((mapGet inner a).getD 0 + seconds))) rest seconds := rfl
    rw [hstep, ih, mapGet_mapSet]
    by_cases h : a = t
    · subst h
      simp only [if_true, Option.getD_some, List.filter_cons, decide_True, List.map_cons,
        List.sum_cons]
      rw [wrapInt_add_left, add_assoc]
    · simp [h, List.filter_cons]

/-- The tag loop keeps every value within the `int` range. -/
theorem addTagSeconds_range (tagIDs : List Int) (seconds : Int) (inner : GoMap Int Int)
    (h : ∀ t, wrapInt ((mapGet inner t).getD 0) = (mapGet inner t).getD 0) (t : Int) :
    wrapInt ((mapGet (addTagSeconds inner tagIDs seconds) t).getD 0)
      = (mapGet (addTagSeconds inner tagIDs seconds) t).getD 0 := by
  induction tagIDs generalizing inner with
  | nil => exact h t
  | cons a rest ih =>
    have hstep : addTagSeconds inner (a :: rest) seconds
        = addTagSeconds (mapSet inner a (wrapInt ((mapGet inner a).getD 0 + seconds))) rest seconds := rfl
    rw [hstep]
    apply ih
    intro t'
    rw [mapGet_mapSet]
    by_cases h' : a = t'
    · simp [h', wrapInt_idem]
    · simp [h', h t']

/-- The value at `(d, t)` after one entry: touched only when the entry falls on `d`. -/
theorem valueAt_aggregateEntry (agg agg' : DailyTagSeconds) (tagIDs : List Int) (entry : TimeEntry)
    (h : aggregateEntry agg tagIDs entry = some agg') (d : String) (t : Int) :
    valueAt agg' d t =
      if entryDate entry = some d then
        (mapGet (addTagSeconds ((mapGet agg d).getD []) tagIDs entry.Seconds) t).getD 0
      else valueAt agg d t := by
  unfold aggregateEntry at h
  unfold entryDate
  cases hp : ParseRFC3339 entry.Start with
  | none => rw [hp] at h; exact absurd h (by simp)
  | some date =>
    rw [hp] at h
    simp only [Option.some.injEq] at h
    subst h
    simp only [Option.map_some', Option.some.injEq]
    unfold valueAt
    rw [mapGet_mapSet]
    by_cases hd : date.FormatDate = d
    · subst hd
      simp only [if_true, Option.getD_some]
      by_cases hn : mapGet agg date.FormatDate = none
      · simp [hn, mapGet_mapSet]
      · simp [hn]
    · simp only [hd, if_false]
      by_cases hn : mapGet agg date.FormatDate = none
      · simp [hn, mapGet_mapSet, hd]
      · simp [hn]

/-- The empty aggregation is in range. -/
theorem inRange_nil : InRange [] := by
  intro d t
  rfl

/-- One entry keeps the aggregation in range. -/
theorem aggregateEntry_inRange (agg agg' : DailyTagSeconds) (tagIDs : List Int) (entry : TimeEntry)
    (h : aggregateEntry agg tagIDs entry = some agg') (hr : InRange agg) : InRange agg' := by
  intro d t
  rw [valueAt_aggregateEntry agg agg' tagIDs entry h d t]
  split
  · exact addTagSeconds_range _ _ _ (fun t' => hr d t') t
  · exact hr d t

/-- One entry adds its share (modulo `2^64`). -/
theorem aggregateEntry_share (agg agg' : DailyTagSeconds) (tagIDs : List Int) (entry : TimeEntry)
    (h : aggregateEntry agg tagIDs entry = some agg') (d : String) (t : Int) :
    wrapInt (valueAt agg' d t) = wrapInt (valueAt agg d t + entryShare tagIDs d t entry) := by
  rw [valueAt_aggregateEntry agg agg' tagIDs entry h d t]
  unfold entryShare
  split
  · rw [addTagSeconds_value]
    rfl
  · simp

/-- The entries of an item add the sum of their shares (modulo `2^64`). -/
theorem aggregateEntries_share (tagIDs : List Int) (entries : List TimeEntry)
    (agg agg' : DailyTagSeconds) (h : aggregateEntries tagIDs entries agg = some agg')
    (d : String) (t : Int) :
    wrapInt (valueAt agg' d t)
      = wrapInt (valueAt agg d t + (entries.map (entryShare tagIDs d t)).sum) := by
  induction entries generalizing agg with
  | nil =>
    simp only [aggregateEntries, Option.some.injEq] at h
    subst h
    simp
  | cons e rest ih =>
    unfold aggregateEntries at h
    cases he : aggregateEntry agg tagIDs e with
    | none => rw [he] at h; exact absurd h (by simp)
    | some mid =>
      rw [he] at h
      rw [ih mid h, ← wrapInt_add_left, aggregateEntry_share agg mid tagIDs e he d t,
        wrapInt_add_left, List.map_cons, List.sum_cons, add_assoc]

/-- The entries of an item keep the aggregation in range. -/
theorem aggregateEntries_inRange (tagIDs : List Int) (entries : List TimeEntry)
    (agg agg' : DailyTagSeconds) (h : aggregateEntries tagIDs entries agg = some agg')
    (hr : InRange agg) : InRange agg' := by
  induction entries generalizing agg with
  | nil =>
    simp only [aggregateEntries, Option.some.injEq] at h
    subst h
    exact hr
  | cons e rest ih =>
    unfold aggregateEntries at h
    cases he : aggregateEntry agg tagIDs e with
    | none => rw [he] at h; exact absurd h (by simp)
    | some mid =>
      rw [he] at h
      exact ih mid h (aggregateEntry_inRange agg mid tagIDs e he hr)

/-- The shares of the entries of an item, summed, are the sum over the entries on the date of
one term per occurrence of the tag. -/
theorem sum_entryShare (tagIDs : List Int) (entries : List TimeEntry) (d : String) (t : Int) :
    (entries.map (entryShare tagIDs d t)).sum
      = ((entries.filter fun entry => decide (entryDate entry = some d)).map fun entry =>
          ((tagIDs.filter fun id => decide (id = t)).map fun _ => entry.Seconds).sum).sum := by
  induction entries with
  | nil => rfl
  | cons e rest ih =>
    rw [List.map_cons, List.sum_cons, ih, List.filter_cons]
    by_cases hd : entryDate e = some d
    · simp [entryShare, hd]
    · simp [entryShare, hd]

/-- The items add the expected seconds (modulo `2^64`). -/
theorem aggregateFrom_share (items : List TimeEntryResponseItem)
    (agg agg' : DailyTagSeconds) (h : aggregateFrom items agg = some agg')
    (d : String) (t : Int) :
    wrapInt (valueAt agg' d t) = wrapInt (valueAt agg d t + expectedSeconds items d t) := by
  induction items generalizing agg with
  | nil =>
    simp only [aggregateFrom, Option.some.injEq] at h
    subst h
    simp [expectedSeconds]
  | cons item rest ih =>
    unfold aggregateFrom at h
    cases he : aggregateEntries item.TagIDs item.TimeEntries agg with
    | none => rw [he] at h; exact absurd h (by simp)
    | some mid =>
      rw [he] at h
      have hexp : expectedSeconds (item :: rest) d t
          = (item.TimeEntries.map (entryShare item.TagIDs d t)).sum + expectedSeconds rest d t := by
        rw [sum_entryShare]
        simp [expectedSeconds]
      rw [ih mid h, ← wrapInt_add_left, aggregateEntries_share _ _ agg mid he d t,
        wrapInt_add_left, hexp, add_assoc]

/-- The items keep the aggregation in range. -/
theorem aggregateFrom_inRange (items : List TimeEntryResponseItem)
    (agg agg' : DailyTagSeconds) (h : aggregateFrom items agg = some agg')
    (hr : InRange agg) : InRange agg' := by
  induction items generalizing agg with
  | nil =>
    simp only [aggregateFrom, Option.some.injEq] at h
    subst h
    exact hr
  | cons item rest ih =>
    unfold aggregateFrom at h
    cases he : aggregateEntries item.TagIDs item.TimeEntries agg with
    | none => rw [he] at h; exact absurd h (by simp)
    | some mid =>
      rw [he] at h
      exact ih mid h (aggregateEntries_inRange _ _ agg mid he hr)

/-- The loop over entries that all parse runs to its end. -/
theorem aggregateEntries_total (tagIDs : List Int) (entries : List TimeEntry)
    (hp : ∀ entry ∈ entries, ParseRFC3339 entry.Start ≠ none) (agg : DailyTagSeconds) :
    ∃ agg', aggregateEntries tagIDs entries agg = some agg' := by
  induction entries generalizing agg with
  | nil => exact ⟨agg, rfl⟩
  | cons e rest ih =>
    unfold aggregateEntries
    cases hs : ParseRFC3339 e.Start with
    | none => exact absurd hs (hp e (List.mem_cons_self _ _))
    | some date =>
      have : ∃ mid, aggregateEntry agg tagIDs e = some mid := by
        unfold aggregateEntry
        rw [hs]
        exact ⟨_, rfl⟩
      obtain ⟨mid, hmid⟩ := this
      rw [hmid]
      exact ih (fun x hx => hp x (List.mem_cons_of_mem _ hx)) mid

/-- The loop over items whose entries all parse runs to its end. -/
theorem aggregateFrom_total (items : List TimeEntryResponseItem) (hp : AllParse items)
    (agg : DailyTagSeconds) : ∃ agg', aggregateFrom items agg = some agg' := by
  induction items generalizing agg with
  | nil => exact ⟨agg, rfl⟩
  | cons item rest ih =>
    unfold aggregateFrom
    obtain ⟨mid, hmid⟩ := aggregateEntries_total item.TagIDs item.TimeEntries
      (hp item (List.mem_cons_self _ _)) agg
    rw [hmid]
    exact ih (fun x hx => hp x (List.mem_cons_of_mem _ hx)) mid

/-- Claim C1. Aggregation gives full credit per tag: for every list of items whose entry start
timestamps all parse, the aggregation runs to its end, and for every date `d` and tag
identifier `t` its value at `(d, t)` is the sum, over every item, every entry of the item
whose date is `d`, and every occurrence of `t` in the item's tag id list, of the entry's
seconds. The duration is never divided among tags. The equality is that of Go `int`
arithmetic: the value is the sum reduced to 64 bits, hence the sum itself whenever the sum
fits in an `int`. -/
theorem aggregate_full_credit (items : List TimeEntryResponseItem) (hp : AllParse items) :
    ∃ agg, aggregate items = some agg ∧
      ∀ (d : String) (t : Int),
        valueAt agg d t = wrapInt (expectedSeconds items d t) ∧
        (minInt ≤ expectedSeconds items d t ∧ expectedSeconds items d t ≤ maxInt →
          valueAt agg d t = expectedSeconds items d t) := by
  obtain ⟨agg, hagg⟩ := aggregateFrom_total items hp []
  refine ⟨agg, hagg, fun d t => ?_⟩
  have h1 := aggregateFrom_share items [] agg hagg d t
  have h2 := aggregateFrom_inRange items [] agg hagg inRange_nil d t
  have h3 : valueAt agg d t = wrapInt (expectedSeconds items d t) := by
    rw [← h2, h1]
    simp [valueAt, mapGet]
  exact ⟨h3, fun hr => by rw [h3, wrapInt_of_range _ hr]⟩

theorem aggregate_full_credit_witness :
    AllParse [⟨[1, 2], [⟨"2025-06-02T10:00:00+09:00", 3600⟩]⟩] ∧
      aggregate [⟨[1, 2], [⟨"2025-06-02T10:00:00+09:00", 3600⟩]⟩]
        = some [("2025-06-02", [(1, 3600), (2, 3600)])] ∧
      ∃ agg, aggregate [⟨[1, 2], [⟨"2025-06-02T10:00:00+09:00", 3600⟩]⟩] = some agg ∧
        ∀ (d : String) (t : Int),
          valueAt agg d t
              = wrapInt (expectedSeconds [⟨[1, 2], [⟨"2025-06-02T10:00:00+09:00", 3600⟩]⟩] d t) ∧
            (minInt ≤ expectedSeconds [⟨[1, 2], [⟨"2025-06-02T10:00:00+09:00", 3600⟩]⟩] d t ∧
                expectedSeconds [⟨[1, 2], [⟨"2025-06-02T10:00:00+09:00", 3600⟩]⟩] d t ≤ maxInt →
              valueAt agg d t
                = expectedSeconds [⟨[1, 2], [⟨"2025-06-02T10:00:00+09:00", 3600⟩]⟩] d t) :=
  ⟨by unfold AllParse; decide, by decide,
    aggregate_full_credit _ (by unfold AllParse; decide)⟩

/-! ## Calendar -/

/-- Fixed points of the calendar model: the epoch, the zero `Time`, a Monday and
a Saturday of June 2025, and the two ends of the supported year range. -/
theorem calendar_examples :
    daysFromCivil 1970 1 1 = 0 ∧ civilFromDays (-1) = (1969, 12, 31) ∧
      zeroTime.FormatDate = "0001-01-01" ∧ zeroTime.Weekday = 1 ∧
      (ParseDate "2025-06-02").map Time.Weekday = some 1 ∧
      (ParseDate "2025-06-07").map Time.Weekday = some 6 ∧
      (ParseRFC3339 "0000-01-01T00:00:00+23:59").map Time.FormatDate = some "0000-01-01" ∧
      (ParseRFC3339 "9999-12-31T23:59:59-23:59").map Time.FormatDate = some "9999-12-31" ∧
      ParseRFC3339 "2025-02-29T10:00:00Z" = none := by
  decide

/-- The digits produced do not depend on the fuel once it covers the number of digits. -/
theorem natDigitsAux_fuel (fuel fuel' n : Nat) (acc : List Char) (h : n < 10 ^ fuel)
    (h' : n < 10 ^ fuel') (hf : 0 < fuel) (hf' : 0 < fuel') :
    natDigitsAux fuel n acc = natDigitsAux fuel' n acc := by
  induction fuel generalizing fuel' n acc with
  | zero => omega
  | succ k ih =>
    cases fuel' with
    | zero => omega
    | succ k' =>
      unfold natDigitsAux
      by_cases hn : n < 10
      · simp [hn]
      · simp only [hn, if_false]
        rw [pow_succ] at h h'
        have hk : 0 < k := by
          rcases Nat.eq_zero_or_pos k with hk | hk
          · subst hk; simp at h; omega
          · exact hk
        have hk' : 0 < k' := by
          rcases Nat.eq_zero_or_pos k' with hk | hk
          · subst hk; simp at h'; omega
          · exact hk
        exact ih k' (n / 10) _ (by omega) (by omega) hk hk'

/-- The digits of a number with any sufficient fuel. -/
theorem natDigits_eq (n fuel : Nat) (h : n < 10 ^ fuel) (hf : 0 < fuel) :
    natDigits n = natDigitsAux fuel n [] := by
  unfold natDigits
  have hlt : n < 10 ^ (n + 1) :=
    Nat.lt_trans (Nat.lt_succ_self n) (Nat.lt_pow_self (show 1 < 10 by decide) (n + 1))
  exact natDigitsAux_fuel _ _ _ _ hlt h (Nat.succ_pos n) hf

/-- Padding to four digits, for a number below 10000. -/
theorem zeroPad_natDigits_four (n : Nat) (h : n ≤ 9999) :
    zeroPad 4 (natDigits n) = fourDigits n := by
  rw [natDigits_eq n 4 (by omega) (by decide)]
  unfold fourDigits
  by_cases h1 : n < 10
  · have e1 : n / 1000 % 10 = 0 := by omega
    have e2 : n / 100 % 10 = 0 := by omega
    have e3 : n / 10 % 10 = 0 := by omega
    have e4 : n % 10 = n := by omega
    rw [e1, e2, e3, e4]
    simp [natDigitsAux, h1, zeroPad, List.replicate, digitChar]
  · by_cases h2 : n < 100
    · have e1 : n / 1000 % 10 = 0 := by omega
      have e2 : n / 100 % 10 = 0 := by omega
      have e3 : n / 10 % 10 = n / 10 := by omega
      have h2' : n / 10 < 10 := by omega
      rw [e1, e2, e3]
      simp [natDigitsAux, h1, h2', zeroPad, List.replicate, digitChar]
    · by_cases h3 : n < 1000
      · have e1 : n / 1000 % 10 = 0 := by omega
        have e2 : n / 100 % 10 = n / 10 / 10 := by omega
        have h2' : ¬ n / 10 < 10 := by omega
        have h3' : n / 10 / 10 < 10 := by omega
        rw [e1, e2]
        simp [natDigitsAux, h1, h2', h3', zeroPad, List.replicate, digitChar]
      · have e1 : n / 1000 % 10 = n / 10 / 10 / 10 := by omega
        have e2 : n / 100 % 10 = n / 10 / 10 % 10 := by omega
        have h2' : ¬ n / 10 < 10 := by omega
        have h3' : ¬ n / 10 / 10 < 10 := by omega
        have h4' : n / 10 / 10 / 10 < 10 := by omega
        rw [e1, e2]
        simp [natDigitsAux, h1, h2', h3', h4', zeroPad, List.replicate, digitChar]

/-- Padding to two digits, for a number below 100. -/
theorem zeroPad_natDigits_two (n : Nat) (h : n ≤ 99) :
    zeroPad 2 (natDigits n) = twoDigits n := by
  rw [natDigits_eq n 2 (by omega) (by decide)]
  unfold twoDigits
  by_cases h1 : n < 10
  · have e3 : n / 10 % 10 = 0 := by omega
    have e4 : n % 10 = n := by omega
    rw [e3, e4]
    simp [natDigitsAux, h1, zeroPad, List.replicate, digitChar]
  · have e3 : n / 10 % 10 = n / 10 := by omega
    have h2' : n / 10 < 10 := by omega
    rw [e3]
    simp [natDigitsAux, h1, h2', zeroPad, List.replicate, digitChar]

/-- The year field of a formatted date. -/
theorem appendInt_four (n : Nat) (h : n ≤ 9999) : appendInt (n : Int) 4 = fourDigits n := by
  unfold appendInt
  rw [if_neg (by omega)]
  simpa using zeroPad_natDigits_four n h

/-- The month and day fields of a formatted date. -/
theorem appendInt_two (n : Nat) (h : n ≤ 99) : appendInt (n : Int) 2 = twoDigits n := by
  unfold appendInt
  rw [if_neg (by omega)]
  simpa using zeroPad_natDigits_two n h

/-- The year of the 400-year era is recovered from the day of the era. -/
theorem yoe_doy_roundtrip (yoe doy doe : Int) (h0 : 0 ≤ yoe) (h1 : yoe < 400) (hd0 : 0 ≤ doy)
    (hd1 : doy ≤ 365)
    (hleap : doy = 365 → ((yoe + 1) % 4 = 0 ∧ ((yoe + 1) % 100 ≠ 0 ∨ (yoe + 1) % 400 = 0)))
    (hdoe : doe = yoe * 365 + yoe / 4 - yoe / 100 + doy) :
    (doe - doe / 1460 + doe / 36524 - doe / 146096) / 365 = yoe ∧ 0 ≤ doe ∧ doe < 146097 := by
  have hleap2 : doy = 365 → yoe % 4 = 3 ∧ yoe ≠ 99 ∧ yoe ≠ 199 ∧ yoe ≠ 299 := by
    intro h
    have := hleap h
    omega
  clear hleap
  have he : yoe / 100 = 0 ∨ yoe / 100 = 1 ∨ yoe / 100 = 2 ∨ yoe / 100 = 3 := by omega
  have hr : yoe % 4 = 0 ∨ yoe % 4 = 1 ∨ yoe % 4 = 2 ∨ yoe % 4 = 3 := by omega
  have hlo : 0 ≤ doe := by omega
  have hhi : doe ≤ 146096 := by omega
  have hi : doe / 146096 = 0 ∨ (doe / 146096 = 1 ∧ doe = 146096) := by omega
  have hg : doe / 36524 - doe / 146096 = yoe / 100 := by
    rcases he with he | he | he | he <;> rcases hi with hi | ⟨hi, hi'⟩ <;> omega
  have hf1 : doe / 1460 ≤ yoe / 4 + doy := by
    rcases hr with hr | hr | hr | hr <;> omega
  have hf2 : yoe / 4 + doy - 364 ≤ doe / 1460 := by
    rcases hr with hr | hr | hr | hr <;> omega
  refine ⟨?_, hlo, by omega⟩
  omega

/-- The civil date of a day number given by its era, year of era and day of year. -/
theorem civilFromDays_of_parts (era yoe doy mp : Int) (h0 : 0 ≤ yoe) (h1 : yoe < 400)
    (hd0 : 0 ≤ doy) (hd1 : doy ≤ 365)
    (hleap : doy = 365 → ((yoe + 1) % 4 = 0 ∧ ((yoe + 1) % 100 ≠ 0 ∨ (yoe + 1) % 400 = 0)))
    (hmp : (5 * doy + 2) / 153 = mp) :
    civilFromDays (era * 146097 + (yoe * 365 + yoe / 4 - yoe / 100 + doy) - 719468)
      = (if (if mp < 10 then mp + 3 else mp - 9) ≤ 2 then yoe + era * 400 + 1 else yoe + era * 400,
          if mp < 10 then mp + 3 else mp - 9, doy - (153 * mp + 2) / 5 + 1) := by
  obtain ⟨hc, hlo, hhi⟩ := yoe_doy_roundtrip yoe doy _ h0 h1 hd0 hd1 hleap rfl
  generalize hdoe : yoe * 365 + yoe / 4 - yoe / 100 + doy = doe at hc hlo hhi
  have hz : era * 146097 + doe - 719468 + 719468 = era * 146097 + doe := by ring
  have hera : (era * 146097 + doe) / 146097 = era := by omega
  have hdoe' : era * 146097 + doe - era * 146097 = doe := by ring
  have hdoy : doe - (365 * yoe + yoe / 4 - yoe / 100) = doy := by omega
  unfold civilFromDays
  simp only [hz, hera, hdoe', hc, hdoy, hmp]

/-- The civil date of the day number of a civil date is that date. -/
theorem civilFromDays_daysFromCivil (y m d : Int) (hm : 1 ≤ m ∧ m ≤ 12)
    (hd : 1 ≤ d ∧ d ≤ daysIn m y) : civilFromDays (daysFromCivil y m d) = (y, m, d) := by
  obtain ⟨hm1, hm12⟩ := hm
  obtain ⟨hd1, hd2⟩ := hd
  have hcases : m = 1 ∨ m = 2 ∨ m = 3 ∨ m = 4 ∨ m = 5 ∨ m = 6 ∨ m = 7 ∨ m = 8 ∨ m = 9 ∨ m = 10
      ∨ m = 11 ∨ m = 12 := by omega
  have hday : d ≤ 31 ∧ (m = 4 ∨ m = 6 ∨ m = 9 ∨ m = 11 → d ≤ 30) ∧ (m = 2 → d ≤ 29) ∧
      (m = 2 → d = 29 → (y % 4 = 0 ∧ (y % 100 ≠ 0 ∨ y % 400 = 0))) := by
    unfold daysIn isLeap at hd2
    rcases hcases with h | h | h | h | h | h | h | h | h | h | h | h <;> subst h <;>
      simp at hd2 ⊢ <;> (try split_ifs at hd2) <;> omega
  obtain ⟨hd31, hd30, hd29, hfeb⟩ := hday
  generalize hy' : (if m ≤ 2 then y - 1 else y) = y'
  have hy'' : (m ≤ 2 ∧ y' = y - 1) ∨ (2 < m ∧ y' = y) := by
    split_ifs at hy' <;> omega
  generalize hmp : (m + 9) % 12 = mp
  have key := civilFromDays_of_parts (y' / 400) (y' - y' / 400 * 400) ((153 * mp + 2) / 5 + d - 1) mp
    (by omega) (by omega) (by omega)
    (by rcases hcases with h | h | h | h | h | h | h | h | h | h | h | h <;> subst h <;> omega)
    (by
      intro h365
      have h2 : m = 2 ∧ d = 29 := by
        rcases hcases with h | h | h | h | h | h | h | h | h | h | h | h <;> subst h <;> omega
      have := hfeb h2.1 h2.2
      omega)
    (by rcases hcases with h | h | h | h | h | h | h | h | h | h | h | h <;> subst h <;> omega)
  have hdef : daysFromCivil y m d
      = y' / 400 * 146097 + ((y' - y' / 400 * 400) * 365 + (y' - y' / 400 * 400) / 4
          - (y' - y' / 400 * 400) / 100 + ((153 * mp + 2) / 5 + d - 1)) - 719468 := by
    unfold daysFromCivil
    simp only [hy', hmp]
  rw [hdef, key]
  have e1 : (if mp < 10 then mp + 3 else mp - 9) = m := by
    split_ifs <;> omega
  rw [e1]
  have e2 : (if m ≤ 2 then y' - y' / 400 * 400 + y' / 400 * 400 + 1
      else y' - y' / 400 * 400 + y' / 400 * 400) = y := by
    split_ifs <;> omega
  have e3 : (153 * mp + 2) / 5 + d - 1 - (153 * mp + 2) / 5 + 1 = d := by ring
  rw [e2, e3]

/-- Day numbers within a month are consecutive. -/
theorem daysFromCivil_day (y m d : Int) :
    daysFromCivil y m 1 + (d - 1) = daysFromCivil y m d := by
  unfold daysFromCivil
  simp only
  ring

/-- The day numbers of the years `0..292277026595`: their seconds fit in a
64-bit count, signed from the Unix epoch and unsigned from the absolute epoch. -/
theorem daysFromCivil_bounds (y m d : Int) (hy : 0 ≤ y ∧ y ≤ 292277026595)
    (hd : 0 ≤ d ∧ d ≤ 31) :
    -720000 ≤ daysFromCivil y m d ∧ daysFromCivil y m d ≤ 106751991167298 := by
  unfold daysFromCivil
  simp only
  split_ifs <;> omega

/-- No month has more than 31 days. -/
theorem daysIn_le (m y : Int) : daysIn m y ≤ 31 := by
  unfold daysIn
  split_ifs <;> omega

/-- The absolute seconds of a `Time` whose wall clock lies in a day of the years
`0..292277026595`: no reduction takes place. -/
theorem abs_eq (t : Time) (days sod : Int) (h : t.unix + t.offset = days * 86400 + sod)
    (h0 : 0 ≤ sod) (h1 : sod < 86400)
    (hb : -720000 ≤ days ∧ days ≤ 106751991167298) :
    t.abs = days * 86400 + sod + unixToAbsolute := by
  unfold Time.abs
  rw [h]
  unfold unixToAbsolute
  omega

/-- The wall-clock day number of a `Time`. -/
theorem localDays_eq (t : Time) (days sod : Int) (h : t.unix + t.offset = days * 86400 + sod)
    (h0 : 0 ≤ sod) (h1 : sod < 86400)
    (hb : -720000 ≤ days ∧ days ≤ 106751991167298) : t.localDays = days := by
  unfold Time.localDays
  rw [abs_eq t days sod h h0 h1 hb]
  unfold unixToAbsolute
  omega

/-- The wall-clock seconds of the day of a `Time`. -/
theorem secondsOfDay_eq (t : Time) (days sod : Int)
    (h : t.unix + t.offset = days * 86400 + sod) (h0 : 0 ≤ sod) (h1 : sod < 86400)
    (hb : -720000 ≤ days ∧ days ≤ 106751991167298) : t.secondsOfDay = sod := by
  unfold Time.secondsOfDay
  rw [abs_eq t days sod h h0 h1 hb]
  unfold unixToAbsolute
  omega

/-- The wall-clock seconds of `time.Date` for a month in `1..12` of the years
`0..292277026595`: the second count is not reduced. -/
theorem Date_unix (y m d hour min sec offset : Int) (hm : 1 ≤ m ∧ m ≤ 12)
    (hy : 0 ≤ y ∧ y ≤ 292277026595) (hd : 0 ≤ d ∧ d ≤ 31)
    (hs : 0 ≤ hour * 3600 + min * 60 + sec ∧ hour * 3600 + min * 60 + sec < 86400)
    (ho : -86400 ≤ offset ∧ offset ≤ 86400) :
    (Date y m d hour min sec offset).unix + (Date y m d hour min sec offset).offset
      = daysFromCivil y m d * 86400 + (hour * 3600 + min * 60 + sec) := by
  unfold Date
  simp only
  have e1 : (m - 1) / 12 = 0 := by omega
  have e2 : (m - 1) % 12 + 1 = m := by omega
  rw [e1, e2, add_zero, daysFromCivil_day]
  have hb := daysFromCivil_bounds y m d hy hd
  rw [wrapInt_of_range _ (by unfold minInt maxInt; omega)]
  ring

/-- The wall-clock date of a `Time` that lies within a day of the years
`0..292277026595`. -/
theorem civil_eq_long (t : Time) (y m d : Nat) (hy : y ≤ maxYear) (hm : 1 ≤ m ∧ m ≤ 12)
    (hd : 1 ≤ d ∧ (d : Int) ≤ daysIn m y) (sod : Int)
    (h : t.unix + t.offset = daysFromCivil y m d * 86400 + sod) (h0 : 0 ≤ sod)
    (h1 : sod < 86400) : t.civil = ((y : Int), (m : Int), (d : Int)) := by
  unfold Time.civil
  unfold maxYear at hy
  have hd31 := daysIn_le m y
  rw [localDays_eq t _ sod h h0 h1
    (daysFromCivil_bounds y m d ⟨by omega, by omega⟩ ⟨by omega, by omega⟩)]
  exact civilFromDays_daysFromCivil y m d ⟨by omega, by omega⟩ ⟨by omega, hd.2⟩

/-- The wall-clock date of a `Time` that lies within the day of a valid date. -/
theorem civil_eq (t : Time) (y m d : Nat) (hv : ValidDate y m d) (sod : Int)
    (h : t.unix + t.offset = daysFromCivil y m d * 86400 + sod) (h0 : 0 ≤ sod)
    (h1 : sod < 86400) : t.civil = ((y : Int), (m : Int), (d : Int)) := by
  obtain ⟨hy, hm1, hm12, hd1, hd2⟩ := hv
  exact civil_eq_long t y m d (by unfold maxYear; omega) ⟨hm1, hm12⟩ ⟨hd1, hd2⟩ sod h h0 h1

/-- The formatted date of a `Time` whose wall-clock date is valid. -/
theorem FormatDate_eq (t : Time) (y m d : Nat) (hv : ValidDate y m d)
    (h : t.civil = ((y : Int), (m : Int), (d : Int))) :
    t.FormatDate = String.mk (dateChars y m d) := by
  unfold Time.FormatDate
  rw [h]
  obtain ⟨hy, hm1, hm12, hd1, hd2⟩ := hv
  have hd31 : d ≤ 31 := by
    have : daysIn m y ≤ 31 := by
      unfold daysIn
      split_ifs <;> omega
    omega
  simp only [appendInt_four y hy, appendInt_two m (by omega), appendInt_two d (by omega)]
  rfl

/-! ## Parsing dates and timestamps -/

/-- The year field reads back four digits. -/
theorem getYear_fourDigits (n : Nat) (h : n ≤ 9999) (r : List Char) :
    getYear (fourDigits n ++ r) = some ((n : Int), r) := by
  have h1 : n / 1000 % 10 < 10 := Nat.mod_lt _ (by decide)
  have h2 : n / 100 % 10 < 10 := Nat.mod_lt _ (by decide)
  have h3 : n / 10 % 10 < 10 := Nat.mod_lt _ (by decide)
  have h4 : n % 10 < 10 := Nat.mod_lt _ (by decide)
  have hv : n / 1000 % 10 * 1000 + n / 100 % 10 * 100 + n / 10 % 10 * 10 + n % 10 = n := by omega
  simp [getYear, fourDigits, isDigit_digitChar h1, isDigit_digitChar h2, isDigit_digitChar h3,
    isDigit_digitChar h4, digitVal_digitChar h1, digitVal_digitChar h2, digitVal_digitChar h3,
    digitVal_digitChar h4]
  exact_mod_cast hv

/-- A two-digit field reads back two digits. -/
theorem getnum_twoDigits (n : Nat) (h : n ≤ 99) (r : List Char) (fixed : Bool) :
    getnum (twoDigits n ++ r) fixed = some ((n : Int), r) := by
  have h3 : n / 10 % 10 < 10 := Nat.mod_lt _ (by decide)
  have h4 : n % 10 < 10 := Nat.mod_lt _ (by decide)
  have hv : n / 10 % 10 * 10 + n % 10 = n := by omega
  simp [getnum, twoDigits, isDigit_digitChar h3, isDigit_digitChar h4, digitVal_digitChar h3,
    digitVal_digitChar h4]
  exact_mod_cast hv

/-- A year field that parses is four digits. -/
theorem getYear_some (s r : List Char) (y : Int) (h : getYear s = some (y, r)) :
    ∃ n : Nat, n ≤ 9999 ∧ y = (n : Int) ∧ s = fourDigits n ++ r := by
  unfold getYear at h
  split at h
  · rename_i a b c d rest
    split at h
    · rename_i hdig
      simp only [Bool.and_eq_true] at hdig
      obtain ⟨⟨⟨ha, hb⟩, hc⟩, hd⟩ := hdig
      simp only [Option.some.injEq, Prod.mk.injEq] at h
      obtain ⟨hy, hr⟩ := h
      subst hr
      have la := digitVal_lt ha
      have lb := digitVal_lt hb
      have lc := digitVal_lt hc
      have ld := digitVal_lt hd
      refine ⟨digitVal a * 1000 + digitVal b * 100 + digitVal c * 10 + digitVal d, by omega,
        hy.symm, ?_⟩
      unfold fourDigits
      have e1 : (digitVal a * 1000 + digitVal b * 100 + digitVal c * 10 + digitVal d) / 1000 % 10
          = digitVal a := by omega
      have e2 : (digitVal a * 1000 + digitVal b * 100 + digitVal c * 10 + digitVal d) / 100 % 10
          = digitVal b := by omega
      have e3 : (digitVal a * 1000 + digitVal b * 100 + digitVal c * 10 + digitVal d) / 10 % 10
          = digitVal c := by omega
      have e4 : (digitVal a * 1000 + digitVal b * 100 + digitVal c * 10 + digitVal d) % 10
          = digitVal d := by omega
      rw [e1, e2, e3, e4, digitChar_digitVal ha, digitChar_digitVal hb, digitChar_digitVal hc,
        digitChar_digitVal hd]
      rfl
    · exact absurd h (by simp)
  · exact absurd h (by simp)

/-- A fixed two-digit field that parses is two digits. -/
theorem getnum_fixed_some (s r : List Char) (v : Int) (h : getnum s true = some (v, r)) :
    ∃ n : Nat, n ≤ 99 ∧ v = (n : Int) ∧ s = twoDigits n ++ r := by
  unfold getnum at h
  split at h
  · rename_i a b rest
    by_cases ha : isDigit a = true
    · by_cases hb : isDigit b = true
      · simp only [ha, hb, if_true, Option.some.injEq, Prod.mk.injEq] at h
        obtain ⟨hy, hr⟩ := h
        subst hr
        have la := digitVal_lt ha
        have lb := digitVal_lt hb
        refine ⟨digitVal a * 10 + digitVal b, by omega, hy.symm, ?_⟩
        unfold twoDigits
        have e1 : (digitVal a * 10 + digitVal b) / 10 % 10 = digitVal a := by omega
        have e2 : (digitVal a * 10 + digitVal b) % 10 = digitVal b := by omega
        rw [e1, e2, digitChar_digitVal ha, digitChar_digitVal hb]
        rfl
      · simp [ha, hb] at h
    · simp [ha] at h
  · simp at h
  · simp at h

/-- A numeric field is never negative. -/
theorem getnum_some_range (s r : List Char) (v : Int) (fixed : Bool)
    (h : getnum s fixed = some (v, r)) : 0 ≤ v := by
  unfold getnum at h
  split at h
  · split at h
    · split at h
      · simp only [Option.some.injEq, Prod.mk.injEq] at h
        rw [← h.1]; exact Int.natCast_nonneg _
      · split at h
        · simp at h
        · simp only [Option.some.injEq, Prod.mk.injEq] at h
          rw [← h.1]; exact Int.natCast_nonneg _
    · simp at h
  · split at h
    · simp only [Option.some.injEq, Prod.mk.injEq] at h
      rw [← h.1]; exact Int.natCast_nonneg _
    · simp at h
  · simp at h

/-- A literal that matches is the head of the input. -/
theorem expect_some (c : Char) (s r : List Char) (h : expect c s = some r) : s = c :: r := by
  unfold expect at h
  split at h
  · rename_i x rest
    by_cases hx : x = c
    · simp only [hx, if_true, Option.some.injEq] at h
      rw [hx, h]
    · simp [hx] at h
  · simp at h

/-- A formatted valid date parses back to midnight UTC of that date. -/
theorem ParseDate_dateChars (y m d : Nat) (hv : ValidDate y m d) :
    ParseDate (String.mk (dateChars y m d)) = some (Date y m d 0 0 0 0) := by
  obtain ⟨hy, hm1, hm12, hd1, hd2⟩ := hv
  have hd31 : d ≤ 31 := by
    have : daysIn m y ≤ 31 := by
      unfold daysIn
      split_ifs <;> omega
    omega
  unfold ParseDate dateChars
  simp only [getYear_fourDigits y hy, expect, if_true, getnum_twoDigits m (by omega)]
  rw [if_neg (by omega)]
  have := getnum_twoDigits d (show d ≤ 99 by omega) [] true
  simp only [List.append_nil] at this
  rw [this]
  simp only [ne_eq, not_true_eq_false, if_false]
  rw [if_neg (by omega)]

/-- A timestamp that parses starts with a valid date `YYYY-MM-DD` and `T`, and the parsed `Time`
lies within that day on its own wall clock. -/
theorem ParseRFC3339_some (value : String) (t : Time) (h : ParseRFC3339 value = some t) :
    ∃ (y m d : Nat) (rest : List Char) (sod : Int), ValidDate y m d ∧
      value.data = dateChars y m d ++ 'T' :: rest ∧
      t.unix + t.offset = daysFromCivil y m d * 86400 + sod ∧ 0 ≤ sod ∧ sod < 86400 := by
  unfold ParseRFC3339 at h
  split at h
  · exact absurd h (by simp)
  rename_i year s1 hyear
  split at h
  · exact absurd h (by simp)
  rename_i s2 hs2
  split at h
  · exact absurd h (by simp)
  rename_i month s3 hmonth
  split at h
  · exact absurd h (by simp)
  rename_i hmr
  split at h
  · exact absurd h (by simp)
  rename_i s4 hs4
  split at h
  · exact absurd h (by simp)
  rename_i day s5 hday
  split at h
  · exact absurd h (by simp)
  rename_i s6 hs6
  split at h
  · exact absurd h (by simp)
  rename_i hour s7 hhour
  split at h
  · exact absurd h (by simp)
  rename_i hhr
  split at h
  · exact absurd h (by simp)
  rename_i s8 hs8
  split at h
  · exact absurd h (by simp)
  rename_i min s9 hmin
  split at h
  · exact absurd h (by simp)
  rename_i hminr
  split at h
  · exact absurd h (by simp)
  rename_i s10 hs10
  split at h
  · exact absurd h (by simp)
  rename_i sec s11 hsec
  split at h
  · exact absurd h (by simp)
  rename_i hsecr
  split at h
  · exact absurd h (by simp)
  rename_i zoneOffset s12 hzone
  split at h
  · exact absurd h (by simp)
  rename_i hs12
  split at h
  · exact absurd h (by simp)
  rename_i hdayr
  simp only [Option.some.injEq] at h
  subst h
  obtain ⟨y, hy, hyeq, hdata⟩ := getYear_some _ _ _ hyear
  have e2 := expect_some _ _ _ hs2
  obtain ⟨m, hm, hmeq, hs1⟩ := getnum_fixed_some _ _ _ hmonth
  have e4 := expect_some _ _ _ hs4
  obtain ⟨d, hd, hdeq, hs3⟩ := getnum_fixed_some _ _ _ hday
  have e6 := expect_some _ _ _ hs6
  have hh0 := getnum_some_range _ _ _ _ hhour
  have hm0 := getnum_some_range _ _ _ _ hmin
  have hs0 := getnum_some_range _ _ _ _ hsec
  subst hyeq hmeq hdeq
  have hv : ValidDate y m d := ⟨hy, by omega, by omega, by omega, by omega⟩
  refine ⟨y, m, d, s6, hour * 3600 + min * 60 + sec, hv, ?_, ?_, by omega, by omega⟩
  · rw [hdata, e2, hs1, e4, hs3, e6]
    simp [dateChars]
  · have hd31 := daysIn_le m y
    have := Date_unix y m d hour min sec 0 ⟨by omega, by omega⟩ ⟨by omega, by omega⟩
      ⟨by omega, by omega⟩ ⟨by omega, by omega⟩ ⟨by omega, by omega⟩
    have hoff : (Date y m d hour min sec 0).offset = 0 := rfl
    simp only at this ⊢
    omega

/-- The first ten characters of a timestamp that starts with a date. -/
theorem take_dateChars (y m d : Nat) (rest : List Char) :
    (dateChars y m d ++ 'T' :: rest).take 10 = dateChars y m d := by
  simp [dateChars, fourDigits, twoDigits]

/-- The formatted date of a parsed timestamp is the date written in it. -/
theorem ParseRFC3339_FormatDate (value : String) (t : Time) (h : ParseRFC3339 value = some t) :
    t.FormatDate = String.mk (value.data.take 10) ∧ IsDateKey t.FormatDate := by
  obtain ⟨y, m, d, rest, sod, hv, hdata, hunix, h0, h1⟩ := ParseRFC3339_some value t h
  have hf := FormatDate_eq t y m d hv (civil_eq t y m d hv sod hunix h0 h1)
  rw [hdata, take_dateChars]
  exact ⟨hf, y, m, d, hv, hf⟩

/-- The date of an entry is a valid date key. -/
theorem entryDate_isDateKey (entry : TimeEntry) (x : String) (h : entryDate entry = some x) :
    IsDateKey x := by
  unfold entryDate at h
  cases hp : ParseRFC3339 entry.Start with
  | none => rw [hp] at h; exact absurd h (by simp)
  | some t =>
    rw [hp] at h
    simp only [Option.map_some', Option.some.injEq] at h
    rw [← h]
    exact (ParseRFC3339_FormatDate _ t hp).2

/-! ## Date keys of the aggregation -/

/-- One entry adds its date to the keys and nothing else. -/
theorem mem_mapKeys_aggregateEntry (agg agg' : DailyTagSeconds) (tagIDs : List Int)
    (entry : TimeEntry) (h : aggregateEntry agg tagIDs entry = some agg') (x : String) :
    x ∈ mapKeys agg' ↔ x ∈ mapKeys agg ∨ entryDate entry = some x := by
  unfold aggregateEntry at h
  unfold entryDate
  cases hp : ParseRFC3339 entry.Start with
  | none => rw [hp] at h; exact absurd h (by simp)
  | some date =>
    rw [hp] at h
    simp only [Option.some.injEq] at h
    subst h
    simp only [Option.map_some', Option.some.injEq]
    rw [mem_mapKeys_mapSet]
    by_cases hn : mapGet agg date.FormatDate = none
    · simp only [hn, if_true]
      rw [mem_mapKeys_mapSet]
      constructor
      · rintro ((h | h) | h)
        · exact Or.inl h
        · exact Or.inr h.symm
        · exact Or.inr h.symm
      · rintro (h | h)
        · exact Or.inl (Or.inl h)
        · exact Or.inr h.symm
    · simp only [hn, if_false]
      constructor
      · rintro (h | h)
        · exact Or.inl h
        · exact Or.inr h.symm
      · rintro (h | h)
        · exact Or.inl h
        · exact Or.inr h.symm

/-- The entries of an item add their dates to the keys and nothing else. -/
theorem mem_mapKeys_aggregateEntries (tagIDs : List Int) (entries : List TimeEntry)
    (agg agg' : DailyTagSeconds) (h : aggregateEntries tagIDs entries agg = some agg')
    (x : String) :
    x ∈ mapKeys agg' ↔ x ∈ mapKeys agg ∨ ∃ entry ∈ entries, entryDate entry = some x := by
  induction entries generalizing agg with
  | nil =>
    simp only [aggregateEntries, Option.some.injEq] at h
    subst h
    simp
  | cons e rest ih =>
    unfold aggregateEntries at h
    cases he : aggregateEntry agg tagIDs e with
    | none => rw [he] at h; exact absurd h (by simp)
    | some mid =>
      rw [he] at h
      rw [ih mid h, mem_mapKeys_aggregateEntry agg mid tagIDs e he]
      simp only [List.mem_cons, exists_eq_or_imp]
      exact or_assoc

/-- The items add the dates of their entries to the keys and nothing else. -/
theorem mem_mapKeys_aggregateFrom (items : List TimeEntryResponseItem)
    (agg agg' : DailyTagSeconds) (h : aggregateFrom items agg = some agg') (x : String) :
    x ∈ mapKeys agg' ↔
      x ∈ mapKeys agg ∨ ∃ item ∈ items, ∃ entry ∈ item.TimeEntries, entryDate entry = some x := by
  induction items generalizing agg with
  | nil =>
    simp only [aggregateFrom, Option.some.injEq] at h
    subst h
    simp
  | cons item rest ih =>
    unfold aggregateFrom at h
    cases he : aggregateEntries item.TagIDs item.TimeEntries agg with
    | none => rw [he] at h; exact absurd h (by simp)
    | some mid =>
      rw [he] at h
      rw [ih mid h, mem_mapKeys_aggregateEntries _ _ agg mid he]
      simp only [List.mem_cons, exists_eq_or_imp]
      exact or_assoc

/-- The keys of the aggregation are the dates of the entries. -/
theorem mem_mapKeys_aggregate (items : List TimeEntryResponseItem) (agg : DailyTagSeconds)
    (h : aggregate items = some agg) (x : String) :
    x ∈ mapKeys agg ↔ ∃ item ∈ items, ∃ entry ∈ item.TimeEntries, entryDate entry = some x := by
  rw [mem_mapKeys_aggregateFrom items [] agg h]
  simp [mapKeys]

/-- Every key of the aggregation is a valid date key. -/
theorem aggregate_keys_valid (items : List TimeEntryResponseItem) (agg : DailyTagSeconds)
    (h : aggregate items = some agg) (x : String) (hx : x ∈ mapKeys agg) : IsDateKey x := by
  obtain ⟨item, _, entry, _, he⟩ := (mem_mapKeys_aggregate items agg h x).1 hx
  exact entryDate_isDateKey entry x he

/-- Claim C2 as stated fails. The entry starting at `2025-06-01T20:00:00Z` is an instant of 2
June 2025 in `Asia/Tokyo`, and the aggregation counts it under `2025-06-01`, the date
written in the timestamp. -/
theorem entry_counted_under_written_date :
    entryDate ⟨"2025-06-01T20:00:00Z", 60⟩ = some "2025-06-01" ∧
      tokyoDate "2025-06-01T20:00:00Z" = some "2025-06-02" ∧
      aggregate [⟨[7], [⟨"2025-06-01T20:00:00Z", 60⟩]⟩] = some [("2025-06-01", [(7, 60)])] := by
  decide

/-- Claim C2, amended. For every time entry whose start parses as RFC 3339, with any UTC offset,
the date key under which the aggregation counts it is the calendar date written in the
timestamp (its first ten characters, the date of the instant in the timestamp's own offset):
the entry is counted under that key whatever the aggregation so far; and that key is the
date in the reporting timezone whenever the offset of the timestamp is `+09:00`. -/
theorem entryDate_is_written_date (entry : TimeEntry) (t : Time)
    (h : ParseRFC3339 entry.Start = some t) :
    entryDate entry = some (String.mk (entry.Start.data.take 10)) ∧
      (∀ (agg : DailyTagSeconds) (tagIDs : List Int),
        ∃ agg', aggregateEntry agg tagIDs entry = some agg' ∧
          String.mk (entry.Start.data.take 10) ∈ mapKeys agg') ∧
      (t.offset = tokyoOffset → tokyoDate entry.Start = entryDate entry) := by
  have hd : entryDate entry = some (String.mk (entry.Start.data.take 10)) := by
    unfold entryDate
    rw [h, Option.map_some', (ParseRFC3339_FormatDate _ t h).1]
  refine ⟨hd, fun agg tagIDs => ?_, fun ho => ?_⟩
  · have : ∃ agg', aggregateEntry agg tagIDs entry = some agg' := by
      unfold aggregateEntry
      rw [h]
      exact ⟨_, rfl⟩
    obtain ⟨agg', hagg⟩ := this
    exact ⟨agg', hagg, (mem_mapKeys_aggregateEntry agg agg' tagIDs entry hagg _).2 (Or.inr hd)⟩
  · unfold tokyoDate entryDate
    rw [h, Option.map_some', Option.map_some', ← ho]
    rfl

/-- A timestamp written in `+09:00` is counted under its written date. -/
theorem entryDate_is_written_date_witness :
    ParseRFC3339 "2025-06-02T10:00:00+09:00" = some ⟨1748826000, 32400⟩ ∧
      entryDate ⟨"2025-06-02T10:00:00+09:00", 3600⟩ = some "2025-06-02" :=
  ⟨by decide,
    (entryDate_is_written_date ⟨"2025-06-02T10:00:00+09:00", 3600⟩ ⟨1748826000, 32400⟩
      (by decide)).1⟩

/-- The inner map of a date after one entry. -/
theorem mapGet_aggregateEntry (agg agg' : DailyTagSeconds) (tagIDs : List Int) (entry : TimeEntry)
    (h : aggregateEntry agg tagIDs entry = some agg') (d : String) :
    mapGet agg' d =
      if entryDate entry = some d then
        some (addTagSeconds ((mapGet agg d).getD []) tagIDs entry.Seconds)
      else mapGet agg d := by
  unfold aggregateEntry at h
  unfold entryDate
  cases hp : ParseRFC3339 entry.Start with
  | none => rw [hp] at h; exact absurd h (by simp)
  | some date =>
    rw [hp] at h
    simp only [Option.some.injEq] at h
    subst h
    simp only [Option.map_some', Option.some.injEq]
    rw [mapGet_mapSet]
    by_cases hd : date.FormatDate = d
    · subst hd
      simp only [if_true]
      by_cases hn : mapGet agg date.FormatDate = none
      · simp [hn, mapGet_mapSet]
      · simp [hn]
    · simp only [hd, if_false]
      by_cases hn : mapGet agg date.FormatDate = none
      · simp [hn, mapGet_mapSet, hd]
      · simp [hn]

/-- Entries that are untagged whenever they fall on the date leave its inner map without tags. -/
theorem untouched_aggregateEntries (tagIDs : List Int) (entries : List TimeEntry) (d : String)
    (hu : ∀ entry ∈ entries, entryDate entry = some d → tagIDs = [])
    (agg agg' : DailyTagSeconds) (h : aggregateEntries tagIDs entries agg = some agg')
    (hinv : Untouched agg d) : Untouched agg' d := by
  induction entries generalizing agg with
  | nil =>
    simp only [aggregateEntries, Option.some.injEq] at h
    subst h
    exact hinv
  | cons e rest ih =>
    unfold aggregateEntries at h
    cases he : aggregateEntry agg tagIDs e with
    | none => rw [he] at h; exact absurd h (by simp)
    | some mid =>
      rw [he] at h
      apply ih (fun x hx => hu x (List.mem_cons_of_mem _ hx)) mid h
      unfold Untouched
      rw [mapGet_aggregateEntry agg mid tagIDs e he d]
      by_cases hd : entryDate e = some d
      · rw [if_pos hd, hu e (List.mem_cons_self _ _) hd]
        right
        rcases hinv with h0 | h0 <;> rw [h0] <;> rfl
      · rw [if_neg hd]
        exact hinv

/-- Items that are untagged whenever one of their entries falls on the date leave its inner map
without tags. -/
theorem untouched_aggregateFrom (items : List TimeEntryResponseItem) (d : String)
    (hu : ∀ item ∈ items, ∀ entry ∈ item.TimeEntries, entryDate entry = some d → item.TagIDs = [])
    (agg agg' : DailyTagSeconds) (h : aggregateFrom items agg = some agg')
    (hinv : Untouched agg d) : Untouched agg' d := by
  induction items generalizing agg with
  | nil =>
    simp only [aggregateFrom, Option.some.injEq] at h
    subst h
    exact hinv
  | cons item rest ih =>
    unfold aggregateFrom at h
    cases he : aggregateEntries item.TagIDs item.TimeEntries agg with
    | none => rw [he] at h; exact absurd h (by simp)
    | some mid =>
      rw [he] at h
      exact ih (fun x hx => hu x (List.mem_cons_of_mem _ hx)) mid h
        (untouched_aggregateEntries _ _ d (hu item (List.mem_cons_self _ _)) agg mid he hinv)

/-! ## Renderer -/

/-- The decision of the Workday Filter on a date key: the key parses, and the filter answers
without failing. -/
theorem isWeekendOrHoliday_key (holidayName : Time → String) (k : String) (hk : IsDateKey k) :
    ∃ day, ParseDate k = some day ∧
      isWeekendOrHoliday holidayName day
        = some (decide (day.Weekday = 6 ∨ day.Weekday = 0) || decide (holidayName day ≠ "")) := by
  obtain ⟨y, m, d, hv, rfl⟩ := hk
  refine ⟨Date y m d 0 0 0 0, ParseDate_dateChars y m d hv, ?_⟩
  unfold isWeekendOrHoliday
  by_cases hw : (Date y m d 0 0 0 0).Weekday = 6 ∨ (Date y m d 0 0 0 0).Weekday = 0
  · simp [hw]
  · rw [if_neg hw]
    have hd31 := daysIn_le m y
    have hu := Date_unix y m d 0 0 0 0 ⟨by have := hv.2.1; omega, by have := hv.2.2.1; omega⟩
      ⟨by omega, by have := hv.1; omega⟩ ⟨by omega, by have := hv.2.2.2.2; omega⟩
      ⟨by omega, by omega⟩ ⟨by omega, by omega⟩
    have hf := FormatDate_eq _ y m d hv (civil_eq _ y m d hv _ hu (by omega) (by omega))
    rw [hf, ParseDate_dateChars y m d hv]
    by_cases hh : holidayName (Date y m d 0 0 0 0) = ""
    · simp [hw, hh]
    · simp [hw, hh]

/-- A date is a workday exactly when the filter does not exclude it. -/
theorem isWorkday_iff (holidayName : Time → String) (k : String) (day : Time)
    (hp : ParseDate k = some day) :
    IsWorkday holidayName k ↔
      (decide (day.Weekday = 6 ∨ day.Weekday = 0) || decide (holidayName day ≠ "")) = false := by
  unfold IsWorkday
  rw [hp]
  simp only [Option.some.injEq, exists_eq_left', Bool.or_eq_false_iff, decide_eq_false_iff_not,
    not_or, ne_eq, not_not]
  tauto

/-- One pass of the date loop on a valid key. -/
theorem renderDates_cons (holidayName : Time → String) (names : GoMap Int String)
    (order : String → GoMap Int Int → List (Int × Int)) (agg : DailyTagSeconds)
    (k : String) (rest : List String) (hk : IsDateKey k) :
    ∃ skip : Bool, (skip = false ↔ IsWorkday holidayName k) ∧
      renderDates holidayName names order agg (k :: rest)
        = ⟨(if skip then [] else renderBlock names k (order k ((mapGet agg k).getD []))) ++
            (renderDates holidayName names order agg rest).out,
          (renderDates holidayName names order agg rest).fatal⟩ := by
  obtain ⟨day, hp, hw⟩ := isWeekendOrHoliday_key holidayName k hk
  refine ⟨_, (isWorkday_iff holidayName k day hp).symm, ?_⟩
  rw [renderDates]
  simp only [hp, Option.getD_some, hw]
  simp

/-- A date line is not a banner. -/
theorem dateLine_ne_banner (d : String) : "Date: " ++ d ≠ banner := by
  intro h
  have := congrArg String.data h
  simp [String.data_append, banner] at this

/-- The only date line of a block is that of its date. -/
theorem dateLine_mem_renderBlock (names : GoMap Int String) (k d : String)
    (visited : List (Int × Int)) : dateLine d ∈ renderBlock names k visited ↔ d = k := by
  unfold renderBlock dateLine
  simp only [List.mem_cons, Output.println.injEq, reduceCtorEq, List.not_mem_nil, or_false,
    dateLine_ne_banner, false_or]
  constructor
  · intro h
    have := congrArg String.data h
    simp only [String.data_append, List.append_cancel_left_eq] at this
    exact String.ext this
  · intro h
    rw [h]

/-- The date loop on valid keys never fails, writes a date line exactly for the workdays, and
writes the whole block of each of them. -/
theorem renderDates_spec (holidayName : Time → String) (names : GoMap Int String)
    (order : String → GoMap Int Int → List (Int × Int)) (agg : DailyTagSeconds)
    (dates : List String) (hk : ∀ k ∈ dates, IsDateKey k) :
    (renderDates holidayName names order agg dates).fatal = none ∧
      (∀ d, dateLine d ∈ (renderDates holidayName names order agg dates).out ↔
        d ∈ dates ∧ IsWorkday holidayName d) ∧
      (∀ d, d ∈ dates → IsWorkday holidayName d →
        ∃ pre post, (renderDates holidayName names order agg dates).out
          = pre ++ renderBlock names d (order d ((mapGet agg d).getD [])) ++ post) := by
  induction dates with
  | nil =>
    refine ⟨rfl, fun d => ?_, fun d hd => absurd hd (List.not_mem_nil d)⟩
    simp [renderDates]
  | cons k rest ih =>
    obtain ⟨ihf, ihm, ihb⟩ := ih (fun x hx => hk x (List.mem_cons_of_mem _ hx))
    obtain ⟨skip, hskip, heq⟩ := renderDates_cons holidayName names order agg k rest
      (hk k (List.mem_cons_self _ _))
    rw [heq]
    refine ⟨ihf, fun d => ?_, fun d hd hw => ?_⟩
    · simp only [List.mem_append, ihm, List.mem_cons]
      cases skip with
      | true =>
        have hnw : ¬ IsWorkday holidayName k := fun h => by
          have := hskip.2 h
          exact absurd this (by simp)
        simp only [if_true, List.not_mem_nil, false_or]
        constructor
        · rintro ⟨h1, h2⟩
          exact ⟨Or.inr h1, h2⟩
        · rintro ⟨h1 | h1, h2⟩
          · subst h1
            exact absurd h2 hnw
          · exact ⟨h1, h2⟩
      | false =>
        have hw : IsWorkday holidayName k := hskip.1 rfl
        simp only [Bool.false_eq_true, if_false, dateLine_mem_renderBlock]
        constructor
        · rintro (h | ⟨h1, h2⟩)
          · subst h
            exact ⟨Or.inl rfl, hw⟩
          · exact ⟨Or.inr h1, h2⟩
        · rintro ⟨h1 | h1, h2⟩
          · exact Or.inl h1
          · exact Or.inr ⟨h1, h2⟩
    · simp only
      rcases List.mem_cons.1 hd with h | h
      · subst h
        have hs : skip = false := hskip.2 hw
        subst hs
        exact ⟨[], (renderDates holidayName names order agg rest).out, by simp⟩
      · obtain ⟨pre, post, hpp⟩ := ihb d h hw
        refine ⟨(if skip then [] else renderBlock names k (order k ((mapGet agg k).getD [])))
          ++ pre, post, ?_⟩
        rw [hpp]
        simp

/-- Insertion adds the date and nothing else. -/
theorem mem_insertDate (x d : String) (ds : List String) :
    x ∈ insertDate d ds ↔ x = d ∨ x ∈ ds := by
  induction ds with
  | nil => simp [insertDate]
  | cons a rest ih =>
    unfold insertDate
    split_ifs
    · simp only [List.mem_cons, ih]
      tauto
    · simp

/-- Sorting keeps the dates. -/
theorem mem_sortDates (x : String) (ds : List String) : x ∈ sortDates ds ↔ x ∈ ds := by
  induction ds with
  | nil => simp [sortDates]
  | cons a rest ih =>
    have : sortDates (a :: rest) = insertDate a (sortDates rest) := rfl
    rw [this, mem_insertDate, ih]
    simp

/-- The renderer on an aggregation with valid keys. -/
theorem render_spec (holidayName : Time → String) (names : GoMap Int String)
    (order : String → GoMap Int Int → List (Int × Int)) (agg : DailyTagSeconds)
    (hk : ∀ k ∈ mapKeys agg, IsDateKey k) :
    (render holidayName names order agg).fatal = none ∧
      (∀ d, dateLine d ∈ (render holidayName names order agg).out ↔
        d ∈ mapKeys agg ∧ IsWorkday holidayName d) ∧
      (∀ d, d ∈ mapKeys agg → IsWorkday holidayName d →
        ∃ pre post, (render holidayName names order agg).out
          = pre ++ renderBlock names d (order d ((mapGet agg d).getD [])) ++ post) := by
  obtain ⟨hf, hm, hb⟩ := renderDates_spec holidayName names order agg
    (sortDates (mapKeys agg)) (fun k h => hk k ((mem_sortDates k _).1 h))
  unfold render
  simp only [hf]
  refine ⟨trivial, fun d => ?_, fun d hd hw => ?_⟩
  · rw [List.mem_append, hm d, mem_sortDates]
    constructor
    · rintro (h | h)
      · exact h
      · exfalso
        simp only [List.mem_singleton, dateLine, Output.println.injEq] at h
        exact dateLine_ne_banner d h
    · intro h
      exact Or.inl h
  · obtain ⟨pre, post, hpp⟩ := hb d ((mem_sortDates d _).2 hd) hw
    exact ⟨pre, post ++ [Output.println banner], by rw [hpp]; simp⟩

/-- A run of the aggregator and renderer on three days: the Sunday is skipped,
the Monday shows its tags and total, the untagged Tuesday shows an empty table. -/
theorem render_example :
    (aggregate
        [⟨[1, 2, 1], [⟨"2025-06-02T10:00:00+09:00", 3600⟩, ⟨"2025-06-01T20:00:00Z", 5⟩]⟩,
          ⟨[], [⟨"2025-06-03T10:00:00+09:00", 3600⟩]⟩]).map
        (render (fun _ => "") [(1, "dev")] (fun _ m => m))
      = some ⟨[Output.println banner, Output.println "Date: 2025-06-02", Output.println banner,
          Output.table ["Tag Name", "Hours"] [["dev", "02:00:00"], ["Unknown Tag", "01:00:00"]]
            ["Total", "03:00:00"],
          Output.println banner, Output.println "Date: 2025-06-03", Output.println banner,
          Output.table ["Tag Name", "Hours"] [] ["Total", "00:00:00"],
          Output.println banner], none⟩ := by
  decide

/-- Claim C5. For every aggregation (of items whose timestamps parse) the renderer runs without
failing, and a date block is rendered exactly for the dates of the aggregation that the
Workday Filter keeps: every date whose weekday is Saturday or Sunday, and every date the
holiday calendar names, is absent from the output even when it has aggregated seconds, and
every other date present in the aggregation is rendered. -/
theorem render_skips_weekends_and_holidays (items : List TimeEntryResponseItem)
    (hp : AllParse items) (holidayName : Time → String) (tagIdNameMap : GoMap Int String)
    (order : String → GoMap Int Int → List (Int × Int)) :
    ∃ agg, aggregate items = some agg ∧
      (render holidayName tagIdNameMap order agg).fatal = none ∧
      (∀ d, dateLine d ∈ (render holidayName tagIdNameMap order agg).out ↔
        d ∈ mapKeys agg ∧ IsWorkday holidayName d) ∧
      (∀ d day, ParseDate d = some day →
        day.Weekday = 6 ∨ day.Weekday = 0 ∨ holidayName day ≠ "" →
        dateLine d ∉ (render holidayName tagIdNameMap order agg).out) := by
  obtain ⟨agg, hagg⟩ := aggregateFrom_total items hp []
  obtain ⟨hf, hm, _⟩ := render_spec holidayName tagIdNameMap order agg
    (aggregate_keys_valid items agg hagg)
  refine ⟨agg, hagg, hf, hm, fun d day hday hex hmem => ?_⟩
  obtain ⟨_, day', hday', h6, h0, hh⟩ := (hm d).1 hmem
  rw [hday] at hday'
  cases Option.some.inj hday'
  rcases hex with h | h | h
  · exact h6 h
  · exact h0 h
  · exact h hh

/-- An aggregation with a Saturday and a Monday. -/
theorem render_skips_weekends_and_holidays_witness :
    AllParse [⟨[1], [⟨"2025-06-07T10:00:00+09:00", 3600⟩, ⟨"2025-06-02T10:00:00+09:00", 60⟩]⟩] ∧
      ∃ agg, aggregate
          [⟨[1], [⟨"2025-06-07T10:00:00+09:00", 3600⟩, ⟨"2025-06-02T10:00:00+09:00", 60⟩]⟩]
          = some agg ∧
        (render (fun _ => "") [] (fun _ m => m) agg).fatal = none ∧
        (∀ d, dateLine d ∈ (render (fun _ => "") [] (fun _ m => m) agg).out ↔
          d ∈ mapKeys agg ∧ IsWorkday (fun _ => "") d) ∧
        (∀ d day, ParseDate d = some day →
          day.Weekday = 6 ∨ day.Weekday = 0 ∨ (fun _ => "") day ≠ "" →
          dateLine d ∉ (render (fun _ => "") [] (fun _ m => m) agg).out) :=
  ⟨by unfold AllParse; decide,
    render_skips_weekends_and_holidays _ (by unfold AllParse; decide) (fun _ => "") []
      (fun _ m => m)⟩

/-- The running total is the sum so far (modulo `2^64`) and stays within the `int` range. -/
theorem foldl_total (visited : List (Int × Int)) (acc : Int) :
    wrapInt (visited.foldl (fun total kv => wrapInt (total + kv.2)) acc)
      = wrapInt (acc + sumSeconds visited) ∧
    (wrapInt acc = acc →
      wrapInt (visited.foldl (fun total kv => wrapInt (total + kv.2)) acc)
        = visited.foldl (fun total kv => wrapInt (total + kv.2)) acc) := by
  induction visited generalizing acc with
  | nil => simp [sumSeconds]
  | cons kv rest ih =>
    obtain ⟨ih1, ih2⟩ := ih (wrapInt (acc + kv.2))
    refine ⟨?_, fun _ => ?_⟩
    · rw [List.foldl_cons, ih1, wrapInt_add_left]
      simp [sumSeconds, add_assoc]
    · rw [List.foldl_cons]
      exact ih2 (wrapInt_idem _)

/-- The daily total is the sum of the visited seconds, reduced to 64 bits. -/
theorem dailyTotalSeconds_eq (visited : List (Int × Int)) :
    dailyTotalSeconds visited = wrapInt (sumSeconds visited) := by
  unfold dailyTotalSeconds
  obtain ⟨h1, h2⟩ := foldl_total visited 0
  rw [← h2 rfl, h1, zero_add]

/-- The sum does not depend on the order. -/
theorem sumSeconds_perm (a b : List (Int × Int)) (h : a.Perm b) : sumSeconds a = sumSeconds b := by
  unfold sumSeconds
  exact (h.map Prod.snd).sum_eq

/-- The tables of a block: the one table of the date, with its rows and total. -/
theorem table_mem_renderBlock (names : GoMap Int String) (k : String)
    (visited : List (Int × Int)) (header footer : List String) (rows : List (List String)) :
    Output.table header rows footer ∈ renderBlock names k visited ↔
      header = ["Tag Name", "Hours"] ∧ rows = visited.map (tagRow names) ∧
        footer = ["Total", formatHMS (dailyTotalSeconds visited)] := by
  unfold renderBlock
  simp only [List.mem_cons, reduceCtorEq, Output.table.injEq, List.not_mem_nil, or_false,
    false_or]

/-- Every table the date loop writes is the table of a workday among the dates. -/
theorem table_mem_renderDates (holidayName : Time → String) (names : GoMap Int String)
    (order : String → GoMap Int Int → List (Int × Int)) (agg : DailyTagSeconds)
    (dates : List String) (hk : ∀ k ∈ dates, IsDateKey k)
    (header footer : List String) (rows : List (List String))
    (h : Output.table header rows footer ∈ (renderDates holidayName names order agg dates).out) :
    ∃ d, d ∈ dates ∧ IsWorkday holidayName d ∧
      footer = ["Total", formatHMS (dailyTotalSeconds (order d ((mapGet agg d).getD [])))] := by
  induction dates with
  | nil => simp [renderDates] at h
  | cons k rest ih =>
    obtain ⟨skip, hskip, heq⟩ := renderDates_cons holidayName names order agg k rest
      (hk k (List.mem_cons_self _ _))
    rw [heq] at h
    simp only [List.mem_append] at h
    rcases h with h | h
    · cases skip with
      | true => simp at h
      | false =>
        simp only [Bool.false_eq_true, if_false] at h
        exact ⟨k, List.mem_cons_self _ _, hskip.1 rfl,
          ((table_mem_renderBlock _ _ _ _ _ _).1 h).2.2⟩
    · obtain ⟨d, hd, hw, hf⟩ := ih (fun x hx => hk x (List.mem_cons_of_mem _ hx)) h
      exact ⟨d, List.mem_cons_of_mem _ hd, hw, hf⟩

/-- Claim C6. For every aggregation (of items whose timestamps parse) and every order in
which the tags of a date are visited, every rendered date has its block in the output, and
the totals row of that block shows the sum of that date's per-tag seconds; every table of
the output is the table of a rendered date with that total. The total does not mention the
visiting order, so it is the same for every order. The sum is that of Go `int` arithmetic:
the sum reduced to 64 bits, hence the sum itself whenever it fits in an `int`. -/
theorem total_row_is_sum (items : List TimeEntryResponseItem) (hp : AllParse items)
    (holidayName : Time → String) (tagIdNameMap : GoMap Int String)
    (order : String → GoMap Int Int → List (Int × Int))
    (horder : ∀ d m, (order d m).Perm m) :
    ∃ agg, aggregate items = some agg ∧
      (∀ d, dateLine d ∈ (render holidayName tagIdNameMap order agg).out →
        ∃ pre post, (render holidayName tagIdNameMap order agg).out =
          pre ++ [Output.println banner, dateLine d, Output.println banner,
            Output.table ["Tag Name", "Hours"]
              ((order d ((mapGet agg d).getD [])).map (tagRow tagIdNameMap))
              ["Total", formatHMS (wrapInt (sumSeconds ((mapGet agg d).getD [])))]] ++ post) ∧
      (∀ header rows footer,
        Output.table header rows footer ∈ (render holidayName tagIdNameMap order agg).out →
        ∃ d, dateLine d ∈ (render holidayName tagIdNameMap order agg).out ∧
          footer = ["Total", formatHMS (wrapInt (sumSeconds ((mapGet agg d).getD [])))]) ∧
      (∀ d, minInt ≤ sumSeconds ((mapGet agg d).getD []) ∧
          sumSeconds ((mapGet agg d).getD []) ≤ maxInt →
        wrapInt (sumSeconds ((mapGet agg d).getD [])) = sumSeconds ((mapGet agg d).getD [])) := by
  obtain ⟨agg, hagg⟩ := aggregateFrom_total items hp []
  have hkeys := aggregate_keys_valid items agg hagg
  obtain ⟨hf, hm, hb⟩ := render_spec holidayName tagIdNameMap order agg hkeys
  have htot : ∀ d, dailyTotalSeconds (order d ((mapGet agg d).getD []))
      = wrapInt (sumSeconds ((mapGet agg d).getD [])) := fun d => by
    rw [dailyTotalSeconds_eq, sumSeconds_perm _ _ (horder d _)]
  refine ⟨agg, hagg, fun d hd => ?_, fun header rows footer ht => ?_,
    fun d hr => wrapInt_of_range _ hr⟩
  · obtain ⟨hk, hw⟩ := (hm d).1 hd
    obtain ⟨pre, post, hpp⟩ := hb d hk hw
    refine ⟨pre, post, ?_⟩
    rw [hpp]
    unfold renderBlock
    rw [htot d]
    rfl
  · have hout : (render holidayName tagIdNameMap order agg).out
        = (renderDates holidayName tagIdNameMap order agg (sortDates (mapKeys agg))).out
          ++ [Output.println banner] := by
      obtain ⟨hf', _, _⟩ := renderDates_spec holidayName tagIdNameMap order agg
        (sortDates (mapKeys agg)) (fun k h => hkeys k ((mem_sortDates k _).1 h))
      unfold render
      simp only [hf']
    rw [hout, List.mem_append] at ht
    rcases ht with ht | ht
    · obtain ⟨d, hd, hw, hfoot⟩ := table_mem_renderDates holidayName tagIdNameMap order agg _
        (fun k h => hkeys k ((mem_sortDates k _).1 h)) header footer rows ht
      refine ⟨d, (hm d).2 ⟨(mem_sortDates d _).1 hd, hw⟩, ?_⟩
      rw [hfoot, htot d]
    · simp at ht

/-- A Monday with two tags, visited in the order opposite to that of insertion: the
totals row shows `01:01:00`. -/
theorem total_row_is_sum_witness :
    AllParse [⟨[1, 2], [⟨"2025-06-02T10:00:00+09:00", 1830⟩]⟩] ∧
      (∀ (d : String) (m : GoMap Int Int), ((fun _ m => m.reverse) d m : GoMap Int Int).Perm m) ∧
      (aggregate [⟨[1, 2], [⟨"2025-06-02T10:00:00+09:00", 1830⟩]⟩]).map
          (fun agg => (render (fun _ => "") [] (fun _ m => m.reverse) agg).out)
        = some [Output.println banner, dateLine "2025-06-02", Output.println banner,
            Output.table ["Tag Name", "Hours"]
              [["Unknown Tag", "00:30:30"], ["Unknown Tag", "00:30:30"]] ["Total", "01:01:00"],
            Output.println banner] ∧
      ∃ agg, aggregate [⟨[1, 2], [⟨"2025-06-02T10:00:00+09:00", 1830⟩]⟩] = some agg ∧
        ∀ header rows footer,
          Output.table header rows footer ∈
            (render (fun _ => "") [] (fun _ m => m.reverse) agg).out →
          ∃ d, dateLine d ∈ (render (fun _ => "") [] (fun _ m => m.reverse) agg).out ∧
            footer = ["Total", formatHMS (wrapInt (sumSeconds ((mapGet agg d).getD [])))] := by
  refine ⟨by unfold AllParse; decide, fun _ m => List.reverse_perm m, by decide, ?_⟩
  obtain ⟨agg, hagg, _, htab, _⟩ := total_row_is_sum
    [⟨[1, 2], [⟨"2025-06-02T10:00:00+09:00", 1830⟩]⟩] (by unfold AllParse; decide)
    (fun _ => "") [] (fun _ m => m.reverse) (fun _ m => List.reverse_perm m)
  exact ⟨agg, hagg, htab⟩

/-- Claim C10. For every list of items with parseable timestamps, the aggregation has a date key
for the date of every entry, including entries of an item whose tag id list is empty: a date
all of whose entries are untagged has an empty inner mapping (no tag has a value there), and
when it is a workday it is rendered as a date block with no tag rows and a totals row of
`00:00:00`. -/
theorem untagged_entries_create_date (items : List TimeEntryResponseItem) (hp : AllParse items)
    (holidayName : Time → String) (tagIdNameMap : GoMap Int String)
    (order : String → GoMap Int Int → List (Int × Int))
    (horder : ∀ d m, (order d m).Perm m) :
    ∃ agg, aggregate items = some agg ∧
      (∀ item ∈ items, ∀ entry ∈ item.TimeEntries,
        ∃ d, entryDate entry = some d ∧ d ∈ mapKeys agg) ∧
      (∀ d, d ∈ mapKeys agg →
        (∀ item ∈ items, ∀ entry ∈ item.TimeEntries, entryDate entry = some d →
          item.TagIDs = []) →
        mapGet agg d = some [] ∧ (∀ t, valueAt agg d t = 0) ∧
        (IsWorkday holidayName d →
          ∃ pre post, (render holidayName tagIdNameMap order agg).out =
            pre ++ [Output.println banner, dateLine d, Output.println banner,
              Output.table ["Tag Name", "Hours"] [] ["Total", "00:00:00"]] ++ post)) := by
  obtain ⟨agg, hagg⟩ := aggregateFrom_total items hp []
  refine ⟨agg, hagg, fun item hi entry he => ?_, fun d hd hun => ?_⟩
  · cases hpe : ParseRFC3339 entry.Start with
    | none => exact absurd hpe (hp item hi entry he)
    | some t =>
      have hde : entryDate entry = some t.FormatDate := by
        unfold entryDate
        rw [hpe]
        rfl
      exact ⟨_, hde, (mem_mapKeys_aggregate items agg hagg _).2 ⟨item, hi, entry, he, hde⟩⟩
  · have hu : Untouched agg d := untouched_aggregateFrom items d hun [] agg hagg (Or.inl rfl)
    have hsome : mapGet agg d = some [] := by
      rcases hu with h0 | h0
      · exact absurd hd ((mapGet_eq_none_iff agg d).1 h0)
      · exact h0
    refine ⟨hsome, fun t => ?_, fun hw => ?_⟩
    · unfold valueAt
      rw [hsome]
      rfl
    · obtain ⟨_, _, hb⟩ := render_spec holidayName tagIdNameMap order agg
        (aggregate_keys_valid items agg hagg)
      obtain ⟨pre, post, hpp⟩ := hb d hd hw
      refine ⟨pre, post, ?_⟩
      rw [hpp, hsome, Option.getD_some, (horder d []).eq_nil]
      rfl

/-- One untagged entry on a Monday. -/
theorem untagged_entries_create_date_witness :
    AllParse [⟨[], [⟨"2025-06-02T10:00:00+09:00", 3600⟩]⟩] ∧
      (∀ (d : String) (m : GoMap Int Int), ((fun _ m => m) d m : GoMap Int Int).Perm m) ∧
      ∃ agg, aggregate [⟨[], [⟨"2025-06-02T10:00:00+09:00", 3600⟩]⟩] = some agg ∧
        (∀ item ∈ [(⟨[], [⟨"2025-06-02T10:00:00+09:00", 3600⟩]⟩ : TimeEntryResponseItem)],
          ∀ entry ∈ item.TimeEntries, ∃ d, entryDate entry = some d ∧ d ∈ mapKeys agg) ∧
        (∀ d, d ∈ mapKeys agg →
          (∀ item ∈ [(⟨[], [⟨"2025-06-02T10:00:00+09:00", 3600⟩]⟩ : TimeEntryResponseItem)],
            ∀ entry ∈ item.TimeEntries, entryDate entry = some d → item.TagIDs = []) →
          mapGet agg d = some [] ∧ (∀ t, valueAt agg d t = 0) ∧
          (IsWorkday (fun _ => "") d →
            ∃ pre post, (render (fun _ => "") [] (fun _ m => m) agg).out =
              pre ++ [Output.println banner, dateLine d, Output.println banner,
                Output.table ["Tag Name", "Hours"] [] ["Total", "00:00:00"]] ++ post)) :=
  ⟨by unfold AllParse; decide, fun _ m => List.Perm.refl m,
    untagged_entries_create_date _ (by unfold AllParse; decide) (fun _ => "") [] (fun _ m => m)
      (fun _ m => List.Perm.refl m)⟩

/-! ## Search request -/

/-- The leap-year rule on a natural year. -/
theorem isLeap_natCast (y : Nat) :
    isLeap (y : Int) = decide (y % 4 = 0 ∧ (y % 100 ≠ 0 ∨ y % 400 = 0)) := by
  unfold isLeap
  by_cases hl : y % 4 = 0 ∧ (y % 100 ≠ 0 ∨ y % 400 = 0)
  · rw [decide_eq_true hl]
    have h1 : (y : Int) % 4 = 0 := by omega
    have h2 : (y : Int) % 100 ≠ 0 ∨ (y : Int) % 400 = 0 := by omega
    rw [decide_eq_true h1, Bool.true_and]
    rcases h2 with h2 | h2
    · rw [decide_eq_true h2, Bool.true_or]
    · rw [decide_eq_true h2, Bool.or_true]
  · rw [decide_eq_false hl]
    by_cases h1 : (y : Int) % 4 = 0
    · have h2 : ¬ (y : Int) % 100 ≠ 0 := by omega
      have h3 : ¬ (y : Int) % 400 = 0 := by omega
      rw [decide_eq_false h2, decide_eq_false h3]
      simp
    · rw [decide_eq_false h1]
      rfl

/-- Go `daysIn` is the last day of the month. -/
theorem daysIn_eq_lastDayOfMonth (y m : Nat) : daysIn m y = (lastDayOfMonth y m : Int) := by
  unfold daysIn lastDayOfMonth
  rw [isLeap_natCast]
  by_cases h2 : m = 2
  · subst h2
    by_cases hl : y % 4 = 0 ∧ (y % 100 ≠ 0 ∨ y % 400 = 0)
    · rw [decide_eq_true hl, if_pos hl]
      rfl
    · rw [decide_eq_false hl, if_neg hl]
      rfl
  · have h2' : ¬ (m : Int) = 2 := by omega
    rw [if_neg h2', if_neg h2]
    by_cases h30 : m = 4 ∨ m = 6 ∨ m = 9 ∨ m = 11
    · have h30' : (m : Int) = 4 ∨ (m : Int) = 6 ∨ (m : Int) = 9 ∨ (m : Int) = 11 := by omega
      rw [if_pos h30, if_pos h30']
      rfl
    · have h30' : ¬ ((m : Int) = 4 ∨ (m : Int) = 6 ∨ (m : Int) = 9 ∨ (m : Int) = 11) := by omega
      rw [if_neg h30, if_neg h30']
      rfl

/-- The day before the first of the next month is the last day of the month. -/
theorem daysFromCivil_next_month (y m : Int) (hm : 1 ≤ m ∧ m ≤ 12) :
    daysFromCivil (y + m / 12) (m % 12 + 1) 1 - 1 = daysFromCivil y m (daysIn m y) := by
  obtain ⟨hm1, hm12⟩ := hm
  have hcases : m = 1 ∨ m = 2 ∨ m = 3 ∨ m = 4 ∨ m = 5 ∨ m = 6 ∨ m = 7 ∨ m = 8 ∨ m = 9 ∨ m = 10
      ∨ m = 11 ∨ m = 12 := by omega
  unfold daysFromCivil daysIn isLeap
  rcases hcases with h | h | h | h | h | h | h | h | h | h | h | h <;> subst h <;> simp <;>
    (try split_ifs) <;> omega

/-- The last day of a month is a valid date. -/
theorem lastDayOfMonth_valid (y m : Nat) (hy : y ≤ 9999) (hm : 1 ≤ m ∧ m ≤ 12) :
    ValidDate y m (lastDayOfMonth y m) := by
  refine ⟨hy, hm.1, hm.2, ?_, ?_⟩
  · unfold lastDayOfMonth
    split_ifs <;> omega
  · rw [daysIn_eq_lastDayOfMonth]

/-- The digits of a number, produced onto an accumulator, end with the accumulator
and have at least one more character when there is fuel. -/
theorem length_natDigitsAux (fuel n : Nat) (acc : List Char) (hf : 0 < fuel) :
    acc.length + 1 ≤ (natDigitsAux fuel n acc).length := by
  induction fuel generalizing n acc with
  | zero => omega
  | succ k ih =>
    unfold natDigitsAux
    by_cases hn : n < 10
    · simp [hn]
    · rw [if_neg hn]
      rcases Nat.eq_zero_or_pos k with hk | hk
      · subst hk
        simp [natDigitsAux]
      · have := ih (n / 10) (digitChar (n % 10) :: acc) hk
        simp only [List.length_cons] at this
        omega

/-- A number from 1000 on has at least four digits. -/
theorem length_natDigits (n : Nat) (h : 1000 ≤ n) : 4 ≤ (natDigits n).length := by
  have hlt : n < 10 ^ (n + 4) :=
    Nat.lt_trans (by omega) (Nat.lt_pow_self (show 1 < 10 by decide) (n + 4))
  rw [natDigits_eq n (n + 4) hlt (by omega)]
  have h1 : ¬ n < 10 := by omega
  have h2 : ¬ n / 10 < 10 := by omega
  have h3 : ¬ n / 10 / 10 < 10 := by omega
  have key : ∀ f, natDigitsAux (f + 3) n []
      = natDigitsAux f (n / 10 / 10 / 10)
          [digitChar (n / 10 / 10 % 10), digitChar (n / 10 % 10), digitChar (n % 10)] := by
    intro f
    simp only [natDigitsAux, h1, h2, h3, if_false]
  have := length_natDigitsAux (n + 1) (n / 10 / 10 / 10)
    [digitChar (n / 10 / 10 % 10), digitChar (n / 10 % 10), digitChar (n % 10)] (by omega)
  rw [key (n + 1)]
  simp only [List.length_cons, List.length_nil] at this
  omega

/-- The year field of a formatted date, for any year that is not negative. -/
theorem appendInt_year (n : Nat) : appendInt (n : Int) 4 = yearDigits n := by
  unfold yearDigits
  by_cases h : n ≤ 9999
  · rw [if_pos h, appendInt_four n h]
  · rw [if_neg h]
    unfold appendInt
    rw [if_neg (by omega)]
    have hl := length_natDigits n (by omega)
    simp only [Int.natAbs_ofNat, zeroPad]
    rw [show 4 - (natDigits n).length = 0 by omega]
    rfl

/-- The formatted date of a `Time` whose wall-clock date is given, the year of any
length. -/
theorem FormatDate_long (t : Time) (y m d : Nat) (hm : m ≤ 12) (hd : d ≤ 31)
    (h : t.civil = ((y : Int), (m : Int), (d : Int))) :
    t.FormatDate = String.mk (longDateChars y m d) := by
  unfold Time.FormatDate
  rw [h]
  simp only [appendInt_year y, appendInt_two m (by omega), appendInt_two d (by omega)]
  simp [longDateChars]

/-- The wall-clock seconds of the day before the first of the next month, as
`AddDate(0, 1, -1)` hands it to `Date`: month `m + 1` and day `0`. -/
theorem Date_next_month (y m offset : Int) (hy : 0 ≤ y ∧ y ≤ 292277026595)
    (hm : 1 ≤ m ∧ m ≤ 12) (ho : -86400 ≤ offset ∧ offset ≤ 86400) :
    (Date y (m + 1) (1 + -1) 0 0 0 offset).unix + (Date y (m + 1) (1 + -1) 0 0 0 offset).offset
      = daysFromCivil y m (daysIn m y) * 86400 + 0 := by
  have hd31 := daysIn_le m y
  have hd28 : 28 ≤ daysIn m y := by
    unfold daysIn
    split_ifs <;> omega
  have hb := daysFromCivil_bounds y m (daysIn m y) hy ⟨by omega, hd31⟩
  have hnext := daysFromCivil_next_month y m hm
  unfold Date
  simp only
  have e1 : m + 1 - 1 = m := by ring
  have e2 : daysFromCivil (y + m / 12) (m % 12 + 1) 1 + (1 + -1 - 1)
      = daysFromCivil y m (daysIn m y) := by
    rw [← hnext]
    ring
  rw [e1, e2, wrapInt_of_range _ (by unfold minInt maxInt; omega)]
  ring

/-- Claim C9 as stated fails. The argument `300000000000-01` resolves to January of the year
300000000000; the second count of `time.Date` for that month exceeds 64 bits and wraps, and
the request asks for 22 February to 21 March of the year -284554049254. -/
theorem buildRequest_wraps_at_large_year :
    parseMonthArgument (2026, 11) ["toggle-tool", "300000000000-01"]
        = (300000000000, 1, none) ∧
      buildRequest 300000000000 1 =
        { Billable := false, ClientIDs := [], Description := ""
          EndDate := "-284554049254-03-21"
          GroupIDs := [], Grouped := false, HideAmounts := false, MaxDuration := 0
          MinDuration := 0, OrderBy := "", OrderDir := "", PageSize := 3000, ProjectIDs := []
          Rounding := 0, RoundingMinutes := 0
          StartDate := "-284554049254-02-22"
          TagIDs := [], TaskIDs := [], TimeEntryIDs := [], UserIDs := [] } := by
  decide

/-- Claim C9, amended. For every resolved year `y` in `0..292277026595` (the years all of
whose instants have a 64-bit count of seconds) and month `m` in `1..12`, the search request
covers exactly that calendar month: its start date is the first day of month `m` of year
`y`, its end date is the last day of the same month (28, 29, 30 or 31 according to the month
and to whether `y` is a leap year), both formatted as `YYYY-MM-DD` (the year in four digits
up to 9999, in all its decimal digits beyond), the page size is 3000 and every other filter
has its zero value. -/
theorem buildRequest_covers_month (y m : Nat) (hy : y ≤ maxYear) (hm : 1 ≤ m ∧ m ≤ 12) :
    buildRequest y m =
        { Billable := false, ClientIDs := [], Description := ""
          EndDate := String.mk (longDateChars y m (lastDayOfMonth y m))
          GroupIDs := [], Grouped := false, HideAmounts := false, MaxDuration := 0
          MinDuration := 0, OrderBy := "", OrderDir := "", PageSize := 3000, ProjectIDs := []
          Rounding := 0, RoundingMinutes := 0
          StartDate := String.mk (longDateChars y m 1)
          TagIDs := [], TaskIDs := [], TimeEntryIDs := [], UserIDs := [] } ∧
      (y ≤ 9999 → longDateChars y m 1 = dateChars y m 1 ∧
        longDateChars y m (lastDayOfMonth y m) = dateChars y m (lastDayOfMonth y m)) ∧
      (9999 < y → parseDigits (yearDigits y) 0 = some y) := by
  have hyI : (0 : Int) ≤ y ∧ (y : Int) ≤ 292277026595 := by
    unfold maxYear at hy
    exact ⟨by omega, by omega⟩
  have hmI : (1 : Int) ≤ m ∧ (m : Int) ≤ 12 := ⟨by omega, by omega⟩
  have hoI : (-86400 : Int) ≤ tokyoOffset ∧ tokyoOffset ≤ 86400 := by
    unfold tokyoOffset
    exact ⟨by omega, by omega⟩
  have hl28 : 28 ≤ lastDayOfMonth y m ∧ lastDayOfMonth y m ≤ 31 := by
    unfold lastDayOfMonth
    split_ifs <;> omega
  have hu := Date_unix y m 1 0 0 0 tokyoOffset hmI hyI ⟨by omega, by omega⟩
    ⟨by omega, by omega⟩ hoI
  have hb1 := daysFromCivil_bounds y m 1 hyI ⟨by omega, by omega⟩
  have hd1 : (1 : Nat) ≤ 1 ∧ ((1 : Nat) : Int) ≤ daysIn m y := by
    rw [daysIn_eq_lastDayOfMonth]
    exact ⟨le_refl 1, by omega⟩
  have hc : (Date y m 1 0 0 0 tokyoOffset).civil = ((y : Int), (m : Int), ((1 : Nat) : Int)) :=
    civil_eq_long _ y m 1 hy hm hd1 _ hu (by omega) (by omega)
  have hstart := FormatDate_long _ y m 1 hm.2 (by omega) hc
  have hsod : (Date y m 1 0 0 0 tokyoOffset).secondsOfDay = 0 :=
    secondsOfDay_eq _ _ _ (by rw [hu]; ring) (le_refl 0) (by omega) hb1
  have hend : ((Date y m 1 0 0 0 tokyoOffset).AddDate 0 1 (-1)).FormatDate
      = String.mk (longDateChars y m (lastDayOfMonth y m)) := by
    apply FormatDate_long _ y m _ hm.2 hl28.2
    apply civil_eq_long _ y m _ hy hm ⟨by omega, by rw [daysIn_eq_lastDayOfMonth]⟩ 0 _
      (le_refl 0) (by omega)
    unfold Time.AddDate
    rw [hc, hsod]
    have hnm := Date_next_month y m tokyoOffset hyI hmI hoI
    rw [daysIn_eq_lastDayOfMonth] at hnm
    have hoff : (Date y m 1 0 0 0 tokyoOffset).offset = tokyoOffset := rfl
    simp only [hoff]
    have e0 : (y : Int) + 0 = y := add_zero _
    rw [e0]
    push_cast at hnm ⊢
    exact hnm
  refine ⟨?_, fun h9 => ?_, fun _ => parseDigits_natDigits y |> fun h => ?_⟩
  · unfold buildRequest
    simp only [hstart, hend]
  · unfold longDateChars yearDigits
    rw [if_pos h9]
    exact ⟨rfl, rfl⟩
  · unfold yearDigits
    rw [if_neg (by omega)]
    exact h

/-- February of the leap year 2024, and January of the year 10000. -/
theorem buildRequest_covers_month_witness :
    buildRequest 2024 2
        = { StartDate := "2024-02-01", EndDate := "2024-02-29", PageSize := 3000 } ∧
      buildRequest 10000 1
        = { StartDate := "10000-01-01", EndDate := "10000-01-31", PageSize := 3000 } :=
  ⟨(buildRequest_covers_month 2024 2 (by decide) (by decide)).1,
    (buildRequest_covers_month 10000 1 (by decide) (by decide)).1⟩

/-! ## The run -/

/-- The transport-error branch: without a response the message cannot be built and the
run panics; with a response (redirect policy) the message is written and `main` returns. -/
theorem sendError_examples :
    sendError none "dial tcp: connection refused" = Outcome.panicked ∧
      sendError (some ⟨302, "", none⟩) "stopped after 10 redirects"
        = Outcome.returned
            [Output.print "Error while sending request: 302, Error: stopped after 10 redirects"] := by
  decide


end ToggleTool
